import Mathlib

/-! # lua-assert: `escape` and `torawstring`

A shallow embedding of `src/escape.c` (the C function `escape_lua`) and of
`src/torawstring.c` (the C function `torawstring_lua`), together with the small part of
the Lua C API they call, followed by theorems about them.

Conventions of the embedding.

* An `unsigned char` is a `Fin 256`; `size_t` values are natural numbers, and the one
  `size_t` subtraction of the source (`BUFSIZ - head`) is taken modulo `2 ^ 64`.
* `char buf[BUFSIZ]` is a list of `BUFSIZ` bytes. It is uninitialised in C, so its initial
  contents are a parameter of the model and `BUFSIZ` is its length.
* The string storage `p` is a list of bytes; a Lua string of length `len` is stored as its
  `len` bytes followed by a NUL byte.
* A read or a write outside an array is undefined behaviour: the model returns `none`.
* Lua gives a C function room for `LUA_MINSTACK` values above its arguments; a push past
  that room is undefined behaviour: `escape_lua` returns `none`.
* The Lua stack is a list of values, bottom first, so that index `1` is the head.
-/

namespace LuaAssert

/-- An `unsigned char`. -/
abbrev Byte := Fin 256

/-- A Lua value, as far as the two C functions can tell values apart. A number is
represented by the text `lua_tolstring` renders for it, a reference value by its address. -/
inductive LuaValue where
  | nil
  | boolean (b : Bool)
  | number (text : List Byte)
  | string (s : List Byte)
  | lightuserdata (addr : Nat)
  | table (addr : Nat)
  | function (addr : Nat)
  | userdata (addr : Nat)
  | thread (addr : Nat)
  deriving DecidableEq, Repr

/-- The part of `lua_State` the functions touch: the stack of the running C function,
bottom first. -/
structure lua_State where
  stack : List LuaValue
  deriving DecidableEq, Repr

/-- An error raised through `luaL_argerror` or `luaL_typeerror`: the argument position
and, for a type error, the offending value (`none` when the argument is absent). -/
inductive LuaError where
  | argerror (arg : Nat)
  | typeerror (arg : Nat) (got : Option LuaValue)
  deriving DecidableEq, Repr

/-- The store of the API function `lua_pushlstring(L, s, len)`, with `s[0..len)` already
read: the string becomes the new top of the stack. The function does not check that the
stack has room; the room Lua guarantees is accounted for by `inStack`, through which
every push of `escape_lua` goes. -/
def lua_pushlstring (L : lua_State) (s : List Byte) : lua_State :=
  { stack := L.stack ++ [LuaValue.string s] }

/-- The API macro `lua_pushliteral(L, s)`. -/
def lua_pushliteral (L : lua_State) (s : List Byte) : lua_State :=
  lua_pushlstring L s

/-- The API function `lua_settop(L, n)` for `n ≥ 0`: truncates the stack, or fills it
with `nil`. -/
def lua_settop (L : lua_State) (n : Nat) : lua_State :=
  { stack := L.stack.take n ++ List.replicate (n - L.stack.length) LuaValue.nil }

/-- The text of a value that `lua_concat` concatenates without a metamethod. -/
def concatText : LuaValue → Option (List Byte)
  | LuaValue.string s => some s
  | LuaValue.number t => some t
  | _ => none

/-- The API function `lua_concat(L, n)`: pushes the empty string when `n = 0`, does nothing
when `n = 1`, and otherwise replaces the top `n` values by their concatenation. Values
that would need a metamethod, or a stack with fewer than `n` values, are outside the
model (`none`). -/
def lua_concat (L : lua_State) (n : Nat) : Option lua_State :=
  if n = 0 then some (lua_pushlstring L [])
  else if n = 1 then some L
  else if n ≤ L.stack.length then
    match (L.stack.drop (L.stack.length - n)).mapM concatText with
    | some parts => some { stack := L.stack.take (L.stack.length - n) ++ [LuaValue.string parts.flatten] }
    | none => none
  else none

/-- The auxiliary function `luaL_checklstring(L, arg, &len)`: a string is returned as it
is, a number is converted to a string in place, anything else (an absent argument
included) raises a type error. The result is the storage the returned pointer gives
access to (the bytes of the string and the NUL byte Lua stores after them), the length,
and the state. -/
def luaL_checklstring (L : lua_State) (arg : Nat) :
    Except LuaError (List Byte × Nat × lua_State) :=
  match L.stack[arg - 1]? with
  | some (LuaValue.string s) => Except.ok (s ++ [0], s.length, L)
  | some (LuaValue.number t) =>
      Except.ok (t ++ [0], t.length, { stack := L.stack.set (arg - 1) (LuaValue.string t) })
  | got => Except.error (LuaError.typeerror arg got)

/-- The constant `static const char dec2hex[17] = "0123456789abcdef"`: sixteen digits and
the terminating NUL. -/
def dec2hex : List Byte :=
  [0x30, 0x31, 0x32, 0x33, 0x34, 0x35, 0x36, 0x37, 0x38, 0x39,
   0x61, 0x62, 0x63, 0x64, 0x65, 0x66, 0x00]

/-- The modulus of `size_t` arithmetic. -/
def SIZE_MOD : Nat := 2 ^ 64

/-- The local variables of `escape_lua` that change in the loop, and the Lua state. -/
structure LoopState where
  buf : List Byte
  head : Nat
  argc : Nat
  L : lua_State
  deriving DecidableEq, Repr

/-- The statement `buf[head++] = x`; a write past the end of `buf` is undefined. -/
def putc (st : LoopState) (x : Byte) : Option LoopState :=
  if st.head < st.buf.length then
    some { st with buf := st.buf.set st.head x, head := st.head + 1 }
  else none

/-- The flush at the top of the loop body:
`if (BUFSIZ - head < 5) { lua_pushlstring(L, buf, head); head = 0; argc++; }`,
the subtraction being a `size_t` one. -/
def flush (st : LoopState) : LoopState :=
  if (st.buf.length + SIZE_MOD - st.head) % SIZE_MOD < 5 then
    { st with L := lua_pushlstring st.L (st.buf.take st.head), head := 0, argc := st.argc + 1 }
  else st

/-- One iteration of the loop of `escape_lua` at index `i`: the flush test and the
`switch (c)`. Reads `p[i]`, and `p[i + 1]` when `c` is a backslash. -/
def escape_step (p : List Byte) (i : Nat) (st : LoopState) : Option LoopState := do
  let c ← p[i]?
  let st := flush st
  if (0x1 ≤ c.val ∧ c.val ≤ 0x6) ∨ (0xe ≤ c.val ∧ c.val ≤ 0x1f) ∨ c.val = 0x7f then
    let st ← putc st 0x5c
    let st ← putc st 0x78
    let st ← putc st (← dec2hex[c.val >>> 4]?)
    putc st (← dec2hex[c.val &&& 0xf]?)
  else if c.val = 0x00 then
    let st ← putc st 0x5c
    putc st 0x30
  else if c.val = 0x07 then
    let st ← putc st 0x5c
    putc st 0x61
  else if c.val = 0x08 then
    let st ← putc st 0x5c
    putc st 0x62
  else if c.val = 0x09 then
    let st ← putc st 0x5c
    putc st 0x74
  else if c.val = 0x0a then
    let st ← putc st 0x5c
    putc st 0x6e
  else if c.val = 0x0b then
    let st ← putc st 0x5c
    putc st 0x76
  else if c.val = 0x0c then
    let st ← putc st 0x5c
    putc st 0x66
  else if c.val = 0x0d then
    let st ← putc st 0x5c
    putc st 0x72
  else if c.val = 0x5c then
    let n ← p[i + 1]?
    if n.val ≤ 0x1f ∨ n.val = 0x7f then
      some st
    else
      putc st c
  else
    putc st c

/-- The loop `for (size_t i = 0; i < len; i++)` entered at index `i` with `n = len - i`
iterations to go. -/
def escape_loop (p : List Byte) : Nat → Nat → LoopState → Option LoopState
  | 0, _, st => some st
  | n + 1, i, st => do
    let st ← escape_step p i st
    escape_loop p n (i + 1) st

/-- The state of `escape_lua` right before `lua_concat(L, argc)`, on a stack with room for
every chunk: `lua_settop(L, 1)`, the loop, and the last flush
`if (head) { lua_pushlstring(L, buf, head); argc++; }`. -/
def escape_chunks (buf : List Byte) (p : List Byte) (len : Nat) (L : lua_State) :
    Option LoopState := do
  let st ← escape_loop p len 0 { buf := buf, head := 0, argc := 0, L := lua_settop L 1 }
  if st.head ≠ 0 then
    some { st with L := lua_pushlstring st.L (st.buf.take st.head), argc := st.argc + 1 }
  else
    some st

/-- The body of `escape_lua` after the argument check, on a stack with room for every
chunk: the state it leaves when it returns `1` (one result, on top of the stack). -/
def escape_body (buf : List Byte) (p : List Byte) (len : Nat) (L : lua_State) :
    Option lua_State :=
  if len = 0 then
    some (lua_pushliteral L [])
  else do
    let st ← escape_chunks buf p len L
    lua_concat st.L st.argc

/-- The constant `LUA_MINSTACK` of `lua.h`: the number of stack slots Lua guarantees to a C
function above its arguments. -/
def LUA_MINSTACK : Nat := 20

/-- The bound of the Lua stack. A C function called with `nargs` arguments has room for
`limit = nargs + LUA_MINSTACK` values, `escape_lua` never calls `lua_checkstack`, and the
push functions do not check: a stack of more than `limit` values is reached only by a
store past the room of the stack, which is undefined behaviour. -/
def inStack (limit : Nat) (L : lua_State) : Option lua_State :=
  if L.stack.length ≤ limit then some L else none

/-- The bound of the Lua stack, on the state of the loop. -/
def loopInStack (limit : Nat) (st : LoopState) : Option LoopState :=
  if st.L.stack.length ≤ limit then some st else none

/-- The loop of `escape_lua` on a stack with room for `limit` values: as `escape_loop`,
each iteration being undefined when its flush pushes past the room of the stack. -/
def escape_loop_bounded (limit : Nat) (p : List Byte) :
    Nat → Nat → LoopState → Option LoopState
  | 0, _, st => some st
  | n + 1, i, st => do
    let st ← escape_step p i st
    let st ← loopInStack limit st
    escape_loop_bounded limit p n (i + 1) st

/-- The state of `escape_lua` right before `lua_concat(L, argc)` on a stack with room for
`limit` values: as `escape_chunks`, every push going through the bound. -/
def escape_chunks_bounded (limit : Nat) (buf : List Byte) (p : List Byte) (len : Nat)
    (L : lua_State) : Option LoopState := do
  let st ← escape_loop_bounded limit p len 0
    { buf := buf, head := 0, argc := 0, L := lua_settop L 1 }
  if st.head ≠ 0 then
    loopInStack limit
      { st with L := lua_pushlstring st.L (st.buf.take st.head), argc := st.argc + 1 }
  else
    some st

/-- The body of `escape_lua` after the argument check on a stack with room for `limit`
values: as `escape_body`, every push going through the bound (`lua_concat` pushes when
`argc` is zero). -/
def escape_body_bounded (limit : Nat) (buf : List Byte) (p : List Byte) (len : Nat)
    (L : lua_State) : Option lua_State :=
  if len = 0 then
    inStack limit (lua_pushliteral L [])
  else do
    let st ← escape_chunks_bounded limit buf p len L
    let L1 ← lua_concat st.L st.argc
    inStack limit L1

/-- The C function `escape_lua` as Lua calls it, with `buf` the initial contents of its
working buffer (so `BUFSIZ = buf.length`) and the arguments as the stack `L`, which has
room for `LUA_MINSTACK` more values: `none` is undefined behaviour, `error` a raised Lua
error, `ok` the state on return. -/
def escape_lua (buf : List Byte) (L : lua_State) : Option (Except LuaError lua_State) :=
  match luaL_checklstring L 1 with
  | Except.error e => some (Except.error e)
  | Except.ok (p, len, L1) =>
    match escape_body_bounded (L.stack.length + LUA_MINSTACK) buf p len L1 with
    | some L2 => some (Except.ok L2)
    | none => none

/-- The value a C function returning `1` hands back: the top of the stack, when it is a
string. -/
def topString (L : lua_State) : Option (List Byte) :=
  match L.stack.getLast? with
  | some (LuaValue.string s) => some s
  | _ => none

/-- The text the Lua call `escape(S)` computes for a string `S`, run with working buffer
`buf` on a stack with room for every chunk (as after `lua_checkstack`). The call under
Lua's own guarantee is `escape_lua`; when its run is defined it returns this text
(`escape_lua_agrees_escape`). -/
def escape (buf : List Byte) (S : List Byte) : Option (List Byte) :=
  match escape_body buf (S ++ [0]) S.length { stack := [LuaValue.string S] } with
  | some L => topString L
  | none => none

/-! ## `torawstring` -/

/-- The type tags `lua_type` returns (`LUA_TNONE`, `LUA_TNIL`, ...). -/
inductive LuaType where
  | TNONE
  | TNIL
  | TBOOLEAN
  | TLIGHTUSERDATA
  | TNUMBER
  | TSTRING
  | TTABLE
  | TFUNCTION
  | TUSERDATA
  | TTHREAD
  deriving DecidableEq, Repr

/-- The type tag of a value. -/
def LuaValue.type : LuaValue → LuaType
  | LuaValue.nil => LuaType.TNIL
  | LuaValue.boolean _ => LuaType.TBOOLEAN
  | LuaValue.number _ => LuaType.TNUMBER
  | LuaValue.string _ => LuaType.TSTRING
  | LuaValue.lightuserdata _ => LuaType.TLIGHTUSERDATA
  | LuaValue.table _ => LuaType.TTABLE
  | LuaValue.function _ => LuaType.TFUNCTION
  | LuaValue.userdata _ => LuaType.TUSERDATA
  | LuaValue.thread _ => LuaType.TTHREAD

/-- The API function `lua_type(L, idx)`: `LUA_TNONE` for an index without a value. -/
def lua_type (L : lua_State) (idx : Nat) : LuaType :=
  match L.stack[idx - 1]? with
  | none => LuaType.TNONE
  | some v => v.type

/-- The API function `lua_typename(L, tp)`, as text: `no value`, `nil`, `boolean`,
`userdata`, `number`, `string`, `table`, `function`, `userdata`, `thread`. -/
def lua_typename : LuaType → List Byte
  | LuaType.TNONE => [0x6e, 0x6f, 0x20, 0x76, 0x61, 0x6c, 0x75, 0x65]
  | LuaType.TNIL => [0x6e, 0x69, 0x6c]
  | LuaType.TBOOLEAN => [0x62, 0x6f, 0x6f, 0x6c, 0x65, 0x61, 0x6e]
  | LuaType.TLIGHTUSERDATA => [0x75, 0x73, 0x65, 0x72, 0x64, 0x61, 0x74, 0x61]
  | LuaType.TNUMBER => [0x6e, 0x75, 0x6d, 0x62, 0x65, 0x72]
  | LuaType.TSTRING => [0x73, 0x74, 0x72, 0x69, 0x6e, 0x67]
  | LuaType.TTABLE => [0x74, 0x61, 0x62, 0x6c, 0x65]
  | LuaType.TFUNCTION => [0x66, 0x75, 0x6e, 0x63, 0x74, 0x69, 0x6f, 0x6e]
  | LuaType.TUSERDATA => [0x75, 0x73, 0x65, 0x72, 0x64, 0x61, 0x74, 0x61]
  | LuaType.TTHREAD => [0x74, 0x68, 0x72, 0x65, 0x61, 0x64]

/-- What the platform decides and the C code does not: the text the `%p` conversion of
`lua_pushfstring` writes for an address, and the address at which Lua stores the bytes of a
string. -/
structure Host where
  pointerText : Nat → List Byte
  stringAddr : List Byte → Nat

/-- The API function `lua_toboolean(L, idx)`: false for `false` and `nil` (and for an index
without a value), true otherwise. -/
def lua_toboolean (L : lua_State) (idx : Nat) : Bool :=
  match L.stack[idx - 1]? with
  | some (LuaValue.boolean b) => b
  | some LuaValue.nil => false
  | none => false
  | some _ => true

/-- The API macro `lua_tostring(L, idx)`: the text of a string, the text of a number (which
is converted to a string in place), `NULL` (`none`) for anything else. -/
def lua_tostring (L : lua_State) (idx : Nat) : Option (List Byte) × lua_State :=
  match L.stack[idx - 1]? with
  | some (LuaValue.string s) => (some s, L)
  | some (LuaValue.number t) =>
      (some t, { stack := L.stack.set (idx - 1) (LuaValue.string t) })
  | _ => (none, L)

/-- The API function `lua_topointer(L, idx)`: the address of a reference value, that of the
stored bytes for a string, `NULL` (zero) otherwise. -/
def lua_topointer (host : Host) (L : lua_State) (idx : Nat) : Nat :=
  match L.stack[idx - 1]? with
  | some (LuaValue.lightuserdata a) => a
  | some (LuaValue.table a) => a
  | some (LuaValue.function a) => a
  | some (LuaValue.userdata a) => a
  | some (LuaValue.thread a) => a
  | some (LuaValue.string s) => host.stringAddr s
  | _ => 0

/-- The API function `lua_pushstring(L, s)`: pushes `nil` when `s` is `NULL`. -/
def lua_pushstring (L : lua_State) (s : Option (List Byte)) : lua_State :=
  match s with
  | some s => lua_pushlstring L s
  | none => { stack := L.stack ++ [LuaValue.nil] }

/-- The text `": "` of the two format strings. -/
def colonSpace : List Byte := [0x3a, 0x20]

/-- The C function `torawstring_lua`: `error` is the raised argument error, `ok` the state
it leaves when it returns `1` (one result, on top of the stack). -/
def torawstring_lua (host : Host) (L : lua_State) : Except LuaError lua_State :=
  match lua_type L 1 with
  | LuaType.TNONE => Except.error (LuaError.argerror 1)
  | LuaType.TNIL => Except.ok (lua_pushliteral L [0x6e, 0x69, 0x6c])
  | LuaType.TBOOLEAN =>
    if lua_toboolean L 1 then
      Except.ok (lua_pushliteral L [0x74, 0x72, 0x75, 0x65])
    else
      Except.ok (lua_pushliteral L [0x66, 0x61, 0x6c, 0x73, 0x65])
  | LuaType.TNUMBER =>
    let r := lua_tostring L 1
    Except.ok (lua_pushstring r.2 r.1)
  | LuaType.TSTRING =>
    let r := lua_tostring L 1
    Except.ok (lua_pushlstring r.2
      (([0x73, 0x74, 0x72, 0x69, 0x6e, 0x67] : List Byte) ++ colonSpace ++
        host.pointerText (match r.1 with | some s => host.stringAddr s | none => 0)))
  | _ =>
    Except.ok (lua_pushlstring L
      (lua_typename (lua_type L 1) ++ colonSpace ++ host.pointerText (lua_topointer host L 1)))

/-- The loop state `escape_lua` enters its loop with, after `lua_settop(L, 1)`. -/
def loopInit (buf : List Byte) (L : lua_State) : LoopState :=
  { buf := buf, head := 0, argc := 0, L := lua_settop L 1 }

/-- A value `luaL_checklstring` accepts, with its text: a string, or a number. -/
def textOf : Option LuaValue → Option (List Byte)
  | some (LuaValue.string s) => some s
  | some (LuaValue.number t) => some t
  | _ => none

/-- A string value: the byte/text kind of the specification. -/
def isString : Option LuaValue → Bool
  | some (LuaValue.string _) => true
  | _ => false

/-! ## The transform of the specification -/

/-- A control byte in the sense of the specification: `0x00`-`0x1F` or `0x7F`. -/
def isControl (c : Byte) : Bool :=
  decide (c.val ≤ 0x1f) || decide (c.val = 0x7f)

/-- The lowercase hexadecimal digit of a value below sixteen, as a character. -/
def hexDigit (d : Nat) : Byte :=
  if d < 10 then Fin.ofNat (0x30 + d) else Fin.ofNat (0x61 + (d - 10))

/-- The per-byte transform of the specification's table for the byte `c` followed by the
byte `next`; the first matching row wins. -/
def transform (c next : Byte) : List Byte :=
  if (0x01 ≤ c.val ∧ c.val ≤ 0x06) ∨ (0x0e ≤ c.val ∧ c.val ≤ 0x1f) ∨ c.val = 0x7f then
    [0x5c, 0x78, hexDigit (c.val / 16), hexDigit (c.val % 16)]
  else if c.val = 0x00 then [0x5c, 0x30]
  else if c.val = 0x07 then [0x5c, 0x61]
  else if c.val = 0x08 then [0x5c, 0x62]
  else if c.val = 0x09 then [0x5c, 0x74]
  else if c.val = 0x0a then [0x5c, 0x6e]
  else if c.val = 0x0b then [0x5c, 0x76]
  else if c.val = 0x0c then [0x5c, 0x66]
  else if c.val = 0x0d then [0x5c, 0x72]
  else if c.val = 0x5c then (if isControl next then [] else [c])
  else [c]

/-- The contract of the specification: the in-order concatenation of the per-byte
transforms, the byte following the last one being `t`, the byte stored after the
sequence. -/
def escapeSpec (t : Byte) : List Byte → List Byte
  | [] => []
  | c :: rest => transform c (rest.headD t) ++ escapeSpec t rest

/-- The bytes `escape_lua` passes through unchanged whatever follows them: neither a
control byte nor the backslash (the last row of the specification's table). -/
def isPlain (c : Byte) : Bool :=
  !isControl c && decide (c.val ≠ 0x5c)

/-- The digits of the hexadecimal escape, `"0123456789abcdef"`. -/
def lowerHex : List Byte :=
  [0x30, 0x31, 0x32, 0x33, 0x34, 0x35, 0x36, 0x37, 0x38, 0x39,
   0x61, 0x62, 0x63, 0x64, 0x65, 0x66]

/-- The bytes with a named two-character escape, each with the letter that follows the
backslash: `\0 \a \b \t \n \v \f \r`. -/
def namedEscapes : List (Byte × Byte) :=
  [(0x00, 0x30), (0x07, 0x61), (0x08, 0x62), (0x09, 0x74),
   (0x0a, 0x6e), (0x0b, 0x76), (0x0c, 0x66), (0x0d, 0x72)]

/-- The bytes that get the four-byte hexadecimal escape. -/
def isHexEscaped (c : Byte) : Bool :=
  (decide (0x01 ≤ c.val) && decide (c.val ≤ 0x06)) ||
    (decide (0x0e ≤ c.val) && decide (c.val ≤ 0x1f)) || decide (c.val = 0x7f)

/-! ## Reading the escaped form back -/

/-- The value of a lowercase hexadecimal digit. -/
def hexValue (h : Byte) : Option Nat :=
  if 0x30 ≤ h.val ∧ h.val ≤ 0x39 then some (h.val - 0x30)
  else if 0x61 ≤ h.val ∧ h.val ≤ 0x66 then some (h.val - 0x61 + 10)
  else none

/-- The byte a named escape letter stands for. -/
def namedByte (l : Byte) : Option Byte :=
  if l.val = 0x30 then some 0x00
  else if l.val = 0x61 then some 0x07
  else if l.val = 0x62 then some 0x08
  else if l.val = 0x74 then some 0x09
  else if l.val = 0x6e then some 0x0a
  else if l.val = 0x76 then some 0x0b
  else if l.val = 0x66 then some 0x0c
  else if l.val = 0x72 then some 0x0d
  else none

/-- The value of the hexadecimal digit a text starts with. -/
def hexHead : List Byte → Option Nat
  | [] => none
  | h :: _ => hexValue h

/-- The byte with a hexadecimal escape (`0x01`-`0x06`, `0x0E`-`0x1F`, `0x7F`) whose two
lowercase digits a text starts with, if there is one. -/
def hexCode : List Byte → Option Byte
  | [] => none
  | h1 :: tl =>
    match hexValue h1, hexHead tl with
    | some a, some b =>
      if isHexEscaped (Fin.ofNat (16 * a + b)) then some (Fin.ofNat (16 * a + b)) else none
    | _, _ => none

/-- The escape sequence of the table at the front of a text, if there is one: the byte it
stands for and the number of bytes it takes. -/
def decodeEscape : List Byte → Option (Byte × Nat)
  | c :: l :: tl =>
    if c.val = 0x5c then
      match namedByte l with
      | some b => some (b, 2)
      | none =>
        if l.val = 0x78 then
          match hexCode tl with
          | some b => some (b, 4)
          | none => none
        else none
    else none
  | _ => none

/-- Reverses the mapping of the specification's table, skipping the first `skip` bytes:
an escape sequence is replaced by the byte it stands for, any other byte is kept. -/
def unescapeFrom : Nat → List Byte → List Byte
  | _, [] => []
  | skip + 1, _ :: rest => unescapeFrom skip rest
  | 0, c :: rest =>
    match decodeEscape (c :: rest) with
    | some (b, k) => b :: unescapeFrom (k - 1) rest
    | none => c :: unescapeFrom 0 rest

/-- The inverse mapping `unescape` of the specification. -/
def unescape (R : List Byte) : List Byte := unescapeFrom 0 R

/-- The hypothesis of the round-trip property as the specification words it: no backslash
is immediately followed by a control byte. -/
def noBackslashBeforeControl : List Byte → Bool
  | [] => true
  | c :: rest =>
    !(decide (c.val = 0x5c) && (match rest with | [] => false | d :: _ => isControl d)) &&
      noBackslashBeforeControl rest

/-- The bytes that follow a backslash read, with it, as an escape sequence of the table:
one of the letters `0 a b t n v f r`, or `x` and the two lowercase hexadecimal digits of a
byte that has a hexadecimal escape. -/
def readsAsEscape : List Byte → Bool
  | [] => false
  | l :: tl => (namedByte l).isSome || (decide (l.val = 0x78) && (hexCode tl).isSome)

/-- Every backslash of the sequence is immediately followed, inside the sequence, by a
byte that is not a control byte, and does not read, with what follows it, as an escape
sequence of the table. -/
def backslashesUnambiguous : List Byte → Bool
  | [] => true
  | c :: rest =>
    (decide (c.val ≠ 0x5c) ||
      ((match rest with | [] => false | d :: _ => !isControl d) && !readsAsEscape rest)) &&
      backslashesUnambiguous rest

/-! ## Predicates of the proofs -/

/-- A run of writes `buf[head++] = x`, one per byte of the list. -/
def puts (st : LoopState) : List Byte → Option LoopState
  | [] => some st
  | x :: xs => (putc st x).bind (fun st1 => puts st1 xs)

/-- The state `st1` is `st` after the bytes `bs` were written to the buffer. -/
def Emits (st st1 : LoopState) (bs : List Byte) : Prop :=
  st1.buf.length = st.buf.length ∧ st1.head = st.head + bs.length ∧
    st1.buf.take st1.head = st.buf.take st.head ++ bs ∧ st1.L = st.L ∧ st1.argc = st.argc

/-- The invariant of the loop on the working buffer: the write cursor is inside it. -/
def BufOk (st : LoopState) : Prop :=
  5 ≤ st.buf.length ∧ st.head ≤ st.buf.length

/-- The state `st1` is `st` after the chunks `cs` were pushed and the buffer was left
holding `rest`: the text `out` was added to what the pushed chunks and the buffer hold. -/
def Produces (st st1 : LoopState) (out : List Byte) : Prop :=
  st1.buf.length = st.buf.length ∧ st1.head ≤ st1.buf.length ∧
    ∃ cs : List (List Byte),
      st1.L.stack = st.L.stack ++ cs.map LuaValue.string ∧
      st1.argc = st.argc + cs.length ∧
      cs.flatten ++ st1.buf.take st1.head = st.buf.take st.head ++ out

/-- The state `st1` is `st` after the chunks `cs` were pushed, each of them filling the
buffer up to its last four bytes, and the text `out` was added to what the pushed chunks
and the buffer hold. -/
def ProducesSized (st st1 : LoopState) (out : List Byte) (cs : List (List Byte)) : Prop :=
  st1.buf.length = st.buf.length ∧ st1.head + 1 ≤ st1.buf.length ∧
    st1.L.stack = st.L.stack ++ cs.map LuaValue.string ∧
    st1.argc = st.argc + cs.length ∧
    cs.flatten ++ st1.buf.take st1.head = st.buf.take st.head ++ out ∧
    ∀ c ∈ cs, c.length + 1 ≤ st.buf.length ∧
      (st.buf.length < SIZE_MOD → st.buf.length ≤ c.length + 4)

/-! ## The loop computes the transform -/

set_option maxRecDepth 100000 in
theorem dec2hex_hi (c : Byte) : dec2hex[c.val >>> 4]? = some (hexDigit (c.val / 16)) := by
  revert c; decide

set_option maxRecDepth 100000 in
theorem dec2hex_lo (c : Byte) : dec2hex[c.val &&& 0xf]? = some (hexDigit (c.val % 16)) := by
  revert c; decide

theorem escape_step_eq_puts (p : List Byte) (i : Nat) (st : LoopState) (c n : Byte)
    (hc : p[i]? = some c) (hn : p[i + 1]? = some n) :
    escape_step p i st = puts (flush st) (transform c n) := by
  unfold escape_step transform
  simp only [hc, hn, dec2hex_hi, dec2hex_lo, Option.bind_eq_bind, Option.some_bind, isControl]
  simp only [apply_ite (puts (flush st)), puts, Bool.or_eq_true, decide_eq_true_eq,
    Option.bind_some]

theorem take_set_self (l : List Byte) (n : Nat) (a : Byte) :
    (l.set n a).take n = l.take n := by
  apply List.ext_getElem?
  intro i
  rw [List.getElem?_take, List.getElem?_take]
  split
  · rw [List.getElem?_set_ne (by omega)]
  · rfl

theorem putc_emits (st : LoopState) (x : Byte) (h : st.head < st.buf.length) :
    ∃ st1, putc st x = some st1 ∧ Emits st st1 [x] := by
  refine ⟨{ st with buf := st.buf.set st.head x, head := st.head + 1 }, ?_, ?_⟩
  · simp only [putc, h, if_true]
  refine ⟨by simp, rfl, ?_, rfl, rfl⟩
  simp only [List.take_succ, List.length_set, h, List.getElem?_set_self]
  simp [take_set_self]

theorem puts_emits (bs : List Byte) (st : LoopState)
    (h : st.head + bs.length ≤ st.buf.length) :
    ∃ st1, puts st bs = some st1 ∧ Emits st st1 bs := by
  induction bs generalizing st with
  | nil => exact ⟨st, rfl, rfl, rfl, by simp, rfl, rfl⟩
  | cons x xs ih =>
    simp only [List.length_cons] at h
    obtain ⟨s1, h1, e1⟩ := putc_emits st x (by omega)
    obtain ⟨s2, h2, e2⟩ := ih s1 (by rw [e1.1, e1.2.1]; simp; omega)
    refine ⟨s2, by simp [puts, h1, h2], ?_⟩
    obtain ⟨a1, a2, a3, a4, a5⟩ := e1
    obtain ⟨b1, b2, b3, b4, b5⟩ := e2
    refine ⟨by omega, by simp only [List.length_cons]; simp at a2; omega, ?_, by rw [b4, a4], by omega⟩
    rw [b3, a3]; simp

theorem flush_spec (st : LoopState) (h : BufOk st) :
    (flush st).head + 4 ≤ (flush st).buf.length ∧ Produces st (flush st) [] := by
  obtain ⟨h5, hh⟩ := h
  unfold flush
  split
  · refine ⟨by simp; omega, rfl, by simp, [st.buf.take st.head], ?_, ?_, ?_⟩
    · simp [lua_pushlstring]
    · simp
    · simp
  · rename_i hlt
    have hlt2 : 5 ≤ st.buf.length - st.head := by
      by_contra hc
      apply hlt
      have : st.buf.length + SIZE_MOD - st.head = SIZE_MOD + (st.buf.length - st.head) := by omega
      rw [this, Nat.add_mod_left]
      exact lt_of_le_of_lt (Nat.mod_le _ _) (by omega)
    exact ⟨by omega, rfl, hh, [], by simp, by simp, by simp⟩

theorem ite_length_le {c : Prop} [Decidable c] {a b : List Byte} {k : Nat}
    (ha : a.length ≤ k) (hb : b.length ≤ k) : (if c then a else b).length ≤ k := by
  split <;> assumption

theorem transform_length_le (c n : Byte) : (transform c n).length ≤ 4 := by
  unfold transform
  repeat' apply ite_length_le
  all_goals simp only [List.length_cons, List.length_nil]; omega

theorem getElem?_storage (pre rest : List Byte) (k : Nat) :
    (pre ++ rest)[pre.length + k]? = rest[k]? := by
  rw [List.getElem?_append_right (by omega)]
  congr 1
  omega

theorem escape_step_spec (p : List Byte) (i : Nat) (st : LoopState) (c n : Byte)
    (hc : p[i]? = some c) (hn : p[i + 1]? = some n) (h : BufOk st) :
    ∃ st1, escape_step p i st = some st1 ∧ Produces st st1 (transform c n) := by
  obtain ⟨hf, g1, g2, cs, g3, g4, g5⟩ := flush_spec st h
  have hlen : (transform c n).length ≤ 4 := transform_length_le c n
  obtain ⟨st1, h1, e1, e2, e3, e4, e5⟩ := puts_emits (transform c n) (flush st) (by omega)
  refine ⟨st1, by rw [escape_step_eq_puts p i st c n hc hn, h1], by omega, by omega, cs, ?_, ?_, ?_⟩
  · rw [e4, g3]
  · rw [e5, g4]
  · rw [e3, ← List.append_assoc, g5]; simp

theorem escape_loop_spec (t : Byte) (junk : List Byte) (xs : List Byte) :
    ∀ (pre : List Byte) (st : LoopState), BufOk st →
      ∃ st1, escape_loop (pre ++ xs ++ t :: junk) xs.length pre.length st = some st1 ∧
        Produces st st1 (escapeSpec t xs) := by
  induction xs with
  | nil =>
    intro pre st h
    exact ⟨st, rfl, rfl, h.2, [], by simp, by simp, by simp [escapeSpec]⟩
  | cons x xs ih =>
    intro pre st h
    have hc : (pre ++ x :: xs ++ t :: junk)[pre.length]? = some x := by
      rw [List.append_assoc]
      exact (getElem?_storage pre _ 0).trans (by simp)
    have hn : (pre ++ x :: xs ++ t :: junk)[pre.length + 1]? = some (xs.headD t) := by
      rw [List.append_assoc, getElem?_storage pre _ 1]
      cases xs <;> simp
    obtain ⟨s1, h1, a1, a2, cs1, a3, a4, a5⟩ := escape_step_spec _ _ st x _ hc hn h
    have hp : pre ++ x :: xs ++ t :: junk = (pre ++ [x]) ++ xs ++ t :: junk := by simp
    obtain ⟨s2, h2, b1, b2, cs2, b3, b4, b5⟩ := ih (pre ++ [x]) s1 ⟨by rw [a1]; exact h.1, a2⟩
    refine ⟨s2, ?_, by omega, b2, cs1 ++ cs2, ?_, ?_, ?_⟩
    · simp only [List.length_cons, escape_loop, h1, Option.bind_eq_bind, Option.some_bind]
      rw [hp]
      simpa using h2
    · rw [b3, a3]; simp
    · rw [b4, a4]; simp; omega
    · simp only [List.flatten_append, List.append_assoc, escapeSpec]
      rw [b5, ← List.append_assoc, a5]; simp

theorem mapM_concatText_strings (cs : List (List Byte)) :
    (cs.map LuaValue.string).mapM concatText = some cs := by
  induction cs with
  | nil => rfl
  | cons c cs ih =>
    rw [List.map_cons, List.mapM_cons, ih]
    rfl

theorem lua_concat_strings (base : List LuaValue) (cs : List (List Byte)) :
    ∃ L1, lua_concat { stack := base ++ cs.map LuaValue.string } cs.length = some L1 ∧
      topString L1 = some cs.flatten := by
  match cs with
  | [] => exact ⟨_, rfl, by simp [topString, lua_pushlstring]⟩
  | [c] => exact ⟨_, rfl, by simp [topString]⟩
  | c :: d :: cs =>
    have hdrop : List.drop ((base ++ (c :: d :: cs).map LuaValue.string).length - (c :: d :: cs).length)
        (base ++ (c :: d :: cs).map LuaValue.string) = (c :: d :: cs).map LuaValue.string := by
      have : (base ++ (c :: d :: cs).map LuaValue.string).length - (c :: d :: cs).length
          = base.length := by simp
      rw [this, List.drop_left]
    refine ⟨{ stack := List.take ((base ++ (c :: d :: cs).map LuaValue.string).length -
        (c :: d :: cs).length) (base ++ (c :: d :: cs).map LuaValue.string) ++
        [LuaValue.string (c :: d :: cs).flatten] }, ?_, by simp [topString]⟩
    unfold lua_concat
    rw [if_neg (by simp), if_neg (by simp), if_pos (by simp)]
    simp only [hdrop, mapM_concatText_strings]

/-- The body of `escape_lua` on a string stored with `t` after its last byte: it returns,
and the value on top of the stack is the specification's transform of the string. -/
theorem escape_body_spec (buf : List Byte) (S : List Byte) (t : Byte) (junk : List Byte)
    (L : lua_State) (hB : 5 ≤ buf.length) :
    ∃ L1, escape_body buf (S ++ t :: junk) S.length L = some L1 ∧
      topString L1 = some (escapeSpec t S) := by
  unfold escape_body
  split
  · rename_i h0
    have : S = [] := List.length_eq_zero.mp h0
    subst this
    exact ⟨_, rfl, by simp [topString, lua_pushliteral, lua_pushlstring, escapeSpec]⟩
  · obtain ⟨st, h1, a1, a2, cs, a3, a4, a5⟩ := escape_loop_spec t junk S []
      { buf := buf, head := 0, argc := 0, L := lua_settop L 1 } ⟨hB, Nat.zero_le _⟩
    simp only [List.nil_append, List.length_nil, List.take_zero, Nat.zero_add] at h1 a3 a4 a5
    by_cases hh : st.head = 0
    · obtain ⟨L1, c1, c2⟩ := lua_concat_strings (lua_settop L 1).stack cs
      refine ⟨L1, ?_, ?_⟩
      · simp only [escape_chunks, h1, Option.bind_eq_bind, Option.some_bind, hh, ne_eq,
          not_true_eq_false, if_false]
        rw [a4]
        have : st.L = { stack := (lua_settop L 1).stack ++ cs.map LuaValue.string } := by
          cases hL : st.L; rw [hL] at a3; simpa using a3
        rw [this]; exact c1
      · rw [c2, ← a5, hh]; simp
    · obtain ⟨L1, c1, c2⟩ := lua_concat_strings (lua_settop L 1).stack
        (cs ++ [st.buf.take st.head])
      refine ⟨L1, ?_, ?_⟩
      · simp only [escape_chunks, h1, Option.bind_eq_bind, Option.some_bind, hh, ne_eq,
          not_false_eq_true, if_true]
        rw [a4]
        have : lua_pushlstring st.L (st.buf.take st.head) =
            { stack := (lua_settop L 1).stack ++
                (cs ++ [st.buf.take st.head]).map LuaValue.string } := by
          simp [lua_pushlstring, a3]
        rw [this]
        simpa using c1
      · rw [c2, ← a5]; simp

/-- The Lua call `escape(S)` returns the specification's transform of `S`, the byte after
the end being the NUL Lua stores there. -/
theorem escape_eq_escapeSpec (buf S : List Byte) (hB : 5 ≤ buf.length) :
    escape buf S = some (escapeSpec 0 S) := by
  obtain ⟨L1, h1, h2⟩ := escape_body_spec buf S 0 [] { stack := [LuaValue.string S] } hB
  simp only [escape, escape_lua, luaL_checklstring, Nat.sub_self, List.getElem?_cons_zero, h1, h2]


/-! ## Facts about the transform -/

theorem transform_backslash (n : Byte) :
    transform 0x5c n = if isControl n then [] else [0x5c] := rfl

theorem transform_named (c l : Byte) (h : (c, l) ∈ namedEscapes) (n : Byte) :
    transform c n = [0x5c, l] := by
  simp only [namedEscapes, List.mem_cons, Prod.mk.injEq, List.mem_singleton, List.mem_nil_iff,
    or_false] at h
  rcases h with h | h | h | h | h | h | h | h <;> obtain ⟨rfl, rfl⟩ := h <;> rfl

theorem transform_plain (c : Byte) (h : isPlain c = true) (n : Byte) : transform c n = [c] := by
  simp only [isPlain, isControl, Bool.and_eq_true, Bool.not_eq_true', Bool.or_eq_false_iff,
    decide_eq_false_iff_not, decide_eq_true_eq] at h
  obtain ⟨⟨h1, h2⟩, h3⟩ := h
  unfold transform
  repeat rw [if_neg (by omega)]

theorem transform_hex (c : Byte) (h : isHexEscaped c = true) (n : Byte) :
    transform c n = [0x5c, 0x78, hexDigit (c.val / 16), hexDigit (c.val % 16)] := by
  simp only [isHexEscaped, Bool.or_eq_true, Bool.and_eq_true, decide_eq_true_eq] at h
  unfold transform
  rw [if_pos (by omega)]

set_option maxRecDepth 100000 in
theorem byte_classes (c : Byte) :
    isHexEscaped c = true ∨ c ∈ namedEscapes.map Prod.fst ∨ c = 0x5c ∨ isPlain c = true := by
  revert c; decide

/-- Case analysis on the rows of the table. -/
theorem transform_cases (P : List Byte → Prop) (c n : Byte)
    (hex : isHexEscaped c = true → P [0x5c, 0x78, hexDigit (c.val / 16), hexDigit (c.val % 16)])
    (named : ∀ l, (c, l) ∈ namedEscapes → P [0x5c, l])
    (dropped : c = 0x5c → isControl n = true → P [])
    (kept : c = 0x5c → isControl n = false → P [c])
    (plain : isPlain c = true → P [c]) : P (transform c n) := by
  rcases byte_classes c with h | h | h | h
  · rw [transform_hex c h]; exact hex h
  · obtain ⟨⟨c1, l⟩, h1, rfl⟩ := List.mem_map.mp h
    rw [transform_named c1 l h1]; exact named l h1
  · subst h
    rw [transform_backslash]
    cases hn : isControl n
    · exact kept rfl hn
    · exact dropped rfl hn
  · rw [transform_plain c h]; exact plain h

theorem named_isControl (c l : Byte) (h : (c, l) ∈ namedEscapes) : isControl c = true := by
  simp only [namedEscapes, List.mem_cons, Prod.mk.injEq, List.mem_singleton, List.mem_nil_iff,
    or_false] at h
  rcases h with h | h | h | h | h | h | h | h <;> obtain ⟨rfl, rfl⟩ := h <;> rfl

set_option maxRecDepth 100000 in
theorem lowerHex_hi (c : Byte) : lowerHex[c.val / 16]? = some (hexDigit (c.val / 16)) := by
  revert c; decide

set_option maxRecDepth 100000 in
theorem lowerHex_lo (c : Byte) : lowerHex[c.val % 16]? = some (hexDigit (c.val % 16)) := by
  revert c; decide

theorem val_backslash : ((0x5c : Byte) : Nat) = 0x5c := rfl

theorem unescapeFrom_named (c l : Byte) (h : (c, l) ∈ namedEscapes) (X : List Byte) :
    unescapeFrom 0 (0x5c :: l :: X) = c :: unescapeFrom 0 X := by
  have hn : namedByte l = some c := by
    simp only [namedEscapes, List.mem_cons, Prod.mk.injEq, List.mem_singleton,
      List.mem_nil_iff, or_false] at h
    rcases h with h | h | h | h | h | h | h | h <;> obtain ⟨rfl, rfl⟩ := h <;> rfl
  have hd : decodeEscape (0x5c :: l :: X) = some (c, 2) := by
    simp [decodeEscape, hn, val_backslash]
  rw [unescapeFrom, hd]
  rfl

set_option maxRecDepth 100000 in
theorem hexValue_hexDigit (c : Byte) :
    hexValue (hexDigit (c.val / 16)) = some (c.val / 16) ∧
      hexValue (hexDigit (c.val % 16)) = some (c.val % 16) := by
  revert c; decide

set_option maxRecDepth 100000 in
theorem ofNat_hex_parts (c : Byte) : (Fin.ofNat (16 * (c.val / 16) + c.val % 16) : Byte) = c := by
  revert c; decide

theorem unescapeFrom_other (c : Byte) (h : c.val ≠ 0x5c) (X : List Byte) :
    unescapeFrom 0 (c :: X) = c :: unescapeFrom 0 X := by
  have hd : decodeEscape (c :: X) = none := by
    cases X with
    | nil => rfl
    | cons l tl => simp [decodeEscape, h]
  rw [unescapeFrom, hd]

set_option maxRecDepth 100000 in
theorem control_classes (c : Byte) (h : isControl c = false) : c = 0x5c ∨ isPlain c = true := by
  revert c; decide

set_option maxRecDepth 100000 in
theorem plain_ne_backslash (c : Byte) (h : isPlain c = true) : c.val ≠ 0x5c := by
  revert c; decide

theorem unescapeFrom_hex (c : Byte) (hx : isHexEscaped c = true) (X : List Byte) :
    unescapeFrom 0 (0x5c :: 0x78 :: hexDigit (c.val / 16) :: hexDigit (c.val % 16) :: X) =
      c :: unescapeFrom 0 X := by
  have hn : namedByte 0x78 = none := rfl
  have hcode : hexCode (hexDigit (c.val / 16) :: hexDigit (c.val % 16) :: X) = some c := by
    simp only [hexCode, hexHead, (hexValue_hexDigit c).1, (hexValue_hexDigit c).2,
      ofNat_hex_parts, hx, if_true]
  have hd : decodeEscape (0x5c :: 0x78 :: hexDigit (c.val / 16) :: hexDigit (c.val % 16) :: X)
      = some (c, 4) := by
    simp only [decodeEscape, hn, hcode]
    rfl
  rw [unescapeFrom, hd]
  rfl

theorem decodeEscape_backslash (rest : List Byte) :
    decodeEscape (0x5c :: rest) = none ↔ readsAsEscape rest = false := by
  cases rest with
  | nil => simp [decodeEscape, readsAsEscape]
  | cons l tl =>
    simp only [decodeEscape, val_backslash, if_true, readsAsEscape]
    cases namedByte l with
    | some b => simp
    | none =>
      by_cases hx : l.val = 0x78
      · cases hexCode tl <;> simp [hx]
      · simp [hx]

set_option maxRecDepth 100000 in
theorem namedByte_all_control (l : Byte) : (namedByte l).all isControl = true := by
  revert l; decide

theorem namedByte_control (l b : Byte) (h : namedByte l = some b) : isControl b = true := by
  have := namedByte_all_control l
  rw [h] at this
  exact this

theorem hexCode_control (tl : List Byte) (b : Byte) (h : hexCode tl = some b) :
    isHexEscaped b = true := by
  cases tl with
  | nil => simp [hexCode] at h
  | cons h1 tl1 =>
    simp only [hexCode] at h
    split at h
    · split at h
      · rename_i hx
        simp only [Option.some.injEq] at h
        rw [← h]; exact hx
      · simp at h
    · simp at h

set_option maxRecDepth 100000 in
theorem hexEscaped_ne_backslash (b : Byte) (h : isHexEscaped b = true) :
    b ≠ 0x5c ∧ isControl b = true := by
  revert b; decide

theorem decodeEscape_ne_backslash (X : List Byte) (b : Byte) (k : Nat)
    (h : decodeEscape X = some (b, k)) : b ≠ 0x5c := by
  have hc : isControl b = true := by
    match X with
    | [] => simp [decodeEscape] at h
    | [_] => simp [decodeEscape] at h
    | c :: l :: tl =>
      simp only [decodeEscape] at h
      split at h
      · split at h
        · rename_i b1 hb1
          simp only [Option.some.injEq, Prod.mk.injEq] at h
          rw [← h.1]; exact namedByte_control l b1 hb1
        · split at h
          · split at h
            · rename_i b1 hb1
              simp only [Option.some.injEq, Prod.mk.injEq] at h
              rw [← h.1]; exact (hexEscaped_ne_backslash b1 (hexCode_control tl b1 hb1)).2
            · simp at h
          · simp at h
      · simp at h
  intro e
  rw [e] at hc
  exact absurd hc (by decide)

set_option maxRecDepth 100000 in
theorem hexValue_control (d : Byte) (h : isControl d = true) : hexValue d = none := by
  revert d; decide

set_option maxRecDepth 100000 in
theorem control_not_plain (d : Byte) (h : isControl d = true) : isPlain d = false := by
  revert d; decide

theorem escapeSpec_control_head (t d : Byte) (rest : List Byte) (h : isControl d = true) :
    ∃ Y, escapeSpec t (d :: rest) = 0x5c :: Y := by
  rw [escapeSpec]
  rcases byte_classes d with hx | hn | hb | hp
  · rw [transform_hex d hx]; exact ⟨_, rfl⟩
  · obtain ⟨⟨c1, l⟩, h1, rfl⟩ := List.mem_map.mp hn
    rw [transform_named c1 l h1]; exact ⟨_, rfl⟩
  · rw [hb] at h; exact absurd h (by decide)
  · rw [control_not_plain d h] at hp; exact absurd hp (by decide)

/-- The escaped form is empty, starts with a backslash, or starts with the plain byte the
input starts with. -/
theorem escapeSpec_head (t : Byte) (R : List Byte) :
    (escapeSpec t R = [] ∧ hexHead R = none) ∨
      ((∃ Y, escapeSpec t R = 0x5c :: Y) ∧ hexHead R = none) ∨
      (∃ c rest, R = c :: rest ∧ isPlain c = true ∧ escapeSpec t R = c :: escapeSpec t rest) := by
  cases R with
  | nil => exact Or.inl ⟨rfl, rfl⟩
  | cons d rest =>
    rcases byte_classes d with hx | hn | hb | hp
    · right; left
      exact ⟨escapeSpec_control_head t d rest (hexEscaped_ne_backslash d hx).2,
        hexValue_control d (hexEscaped_ne_backslash d hx).2⟩
    · obtain ⟨⟨c1, l⟩, h1, rfl⟩ := List.mem_map.mp hn
      right; left
      exact ⟨escapeSpec_control_head t c1 rest (named_isControl c1 l h1),
        hexValue_control c1 (named_isControl c1 l h1)⟩
    · subst hb
      have hh : hexHead ((0x5c : Byte) :: rest) = none := rfl
      rw [escapeSpec, transform_backslash]
      cases hc : isControl (rest.headD t) with
      | false => right; left; exact ⟨⟨_, rfl⟩, hh⟩
      | true =>
        simp only [if_true, List.nil_append]
        cases rest with
        | nil => left; exact ⟨rfl, hh⟩
        | cons e rest1 =>
          right; left
          exact ⟨escapeSpec_control_head t e rest1 (by simpa using hc), hh⟩
    · right; right
      exact ⟨d, rest, rfl, hp, by rw [escapeSpec, transform_plain d hp]; rfl⟩

theorem hexHead_escapeSpec (t : Byte) (R : List Byte) :
    hexHead (escapeSpec t R) = hexHead R := by
  rcases escapeSpec_head t R with ⟨h1, h2⟩ | ⟨⟨Y, h1⟩, h2⟩ | ⟨c, rest, rfl, _, h3⟩
  · rw [h1, h2]; rfl
  · rw [h1, h2]; rfl
  · rw [h3]; rfl

theorem hexCode_of_hexHead_none (R : List Byte) (h : hexHead R = none) : hexCode R = none := by
  cases R with
  | nil => rfl
  | cons d rest =>
    simp only [hexHead] at h
    simp only [hexCode, h]

theorem hexCode_escapeSpec (t : Byte) (R : List Byte) :
    hexCode (escapeSpec t R) = hexCode R := by
  rcases escapeSpec_head t R with ⟨h1, h2⟩ | ⟨⟨Y, h1⟩, h2⟩ | ⟨c, rest, rfl, _, h3⟩
  · rw [h1, hexCode_of_hexHead_none R h2]; rfl
  · rw [h1, hexCode_of_hexHead_none R h2]; rfl
  · rw [h3]
    simp only [hexCode, hexHead_escapeSpec]

theorem escapeSpec_head_kept (d : Byte) (rest : List Byte) (hd : isControl d = false)
    (h : backslashesUnambiguous (d :: rest) = true) :
    escapeSpec 0 (d :: rest) = d :: escapeSpec 0 rest := by
  rcases control_classes d hd with rfl | hp
  · cases rest with
    | nil =>
      simp [backslashesUnambiguous] at h
      exact absurd rfl h
    | cons e rest1 =>
      simp only [backslashesUnambiguous, Bool.and_eq_true, Bool.or_eq_true, decide_eq_true_eq,
        Bool.not_eq_true'] at h
      have he : isControl e = false := by
        rcases h.1 with h1 | h1
        · exact absurd rfl h1
        · exact h1.1
      rw [escapeSpec, List.headD_cons, transform_backslash, he]; rfl
  · rw [escapeSpec, transform_plain d hp]; rfl

theorem readsAsEscape_escapeSpec (d : Byte) (rest : List Byte) :
    readsAsEscape (d :: escapeSpec 0 rest) = readsAsEscape (d :: rest) := by
  simp only [readsAsEscape, hexCode_escapeSpec]

theorem unescape_escapeSpec (S : List Byte) (h : backslashesUnambiguous S = true) :
    unescape (escapeSpec 0 S) = S := by
  unfold unescape
  induction S with
  | nil => rfl
  | cons c rest ih =>
    have hrest : backslashesUnambiguous rest = true := by
      simp only [backslashesUnambiguous, Bool.and_eq_true] at h
      exact h.2
    have ih1 := ih hrest
    rcases byte_classes c with hx | hn | hb | hp
    · rw [escapeSpec, transform_hex c hx]
      simp only [List.cons_append, List.nil_append]
      rw [unescapeFrom_hex c hx, ih1]
    · obtain ⟨⟨c1, l⟩, h1, rfl⟩ := List.mem_map.mp hn
      rw [escapeSpec, transform_named c1 l h1]
      simp only [List.cons_append, List.nil_append]
      rw [unescapeFrom_named c1 l h1, ih1]
    · subst hb
      cases rest with
      | nil =>
        simp [backslashesUnambiguous] at h
        exact absurd rfl h
      | cons d rest1 =>
        simp only [backslashesUnambiguous, Bool.and_eq_true, Bool.or_eq_true, decide_eq_true_eq,
          Bool.not_eq_true'] at h
        have hd : isControl d = false ∧ readsAsEscape (d :: rest1) = false := by
          rcases h.1 with h1 | h1
          · exact absurd rfl h1
          · exact h1
        have hk := escapeSpec_head_kept d rest1 hd.1 hrest
        have hdec : decodeEscape (0x5c :: escapeSpec 0 (d :: rest1)) = none := by
          rw [decodeEscape_backslash, hk, readsAsEscape_escapeSpec]
          exact hd.2
        rw [escapeSpec, List.headD_cons, transform_backslash, hd.1]
        simp only [Bool.false_eq_true, if_false, List.cons_append, List.nil_append]
        rw [unescapeFrom, hdec, ih1]
    · rw [escapeSpec, transform_plain c hp]
      simp only [List.cons_append, List.nil_append]
      rw [unescapeFrom_other c (plain_ne_backslash c hp), ih1]

/-- Among the byte sequences without a backslash before a control byte, `unescape` gives
the input back from its escaped form exactly for those with unambiguous backslashes. -/
theorem unescape_escapeSpec_iff (S : List Byte) (hH : noBackslashBeforeControl S = true) :
    unescape (escapeSpec 0 S) = S ↔ backslashesUnambiguous S = true := by
  refine ⟨?_, unescape_escapeSpec S⟩
  unfold unescape
  induction S with
  | nil => intro _; rfl
  | cons c rest ih =>
    intro h
    simp only [noBackslashBeforeControl, Bool.and_eq_true, Bool.not_eq_true',
      Bool.and_eq_false_iff, decide_eq_false_iff_not] at hH
    have ih1 := ih hH.2
    have hfree : c.val ≠ 0x5c → unescapeFrom 0 (escapeSpec 0 rest) = rest →
        backslashesUnambiguous (c :: rest) = true := by
      intro hc hr
      simp only [backslashesUnambiguous, Bool.and_eq_true, Bool.or_eq_true, decide_eq_true_eq]
      exact ⟨Or.inl hc, ih1 hr⟩
    rcases byte_classes c with hx | hn | hb | hp
    · rw [escapeSpec, transform_hex c hx] at h
      simp only [List.cons_append, List.nil_append] at h
      rw [unescapeFrom_hex c hx] at h
      exact hfree (fun e => (hexEscaped_ne_backslash c hx).1 (Fin.ext e)) (List.cons.inj h).2
    · obtain ⟨⟨c1, l⟩, h1, rfl⟩ := List.mem_map.mp hn
      rw [escapeSpec, transform_named c1 l h1] at h
      simp only [List.cons_append, List.nil_append] at h
      rw [unescapeFrom_named c1 l h1] at h
      refine hfree (fun e => ?_) (List.cons.inj h).2
      have hc := named_isControl c1 l h1
      have e1 : c1 = 0x5c := Fin.ext e
      rw [e1] at hc
      exact absurd hc (by decide)
    · subst hb
      cases rest with
      | nil =>
        exfalso
        have : escapeSpec 0 [(0x5c : Byte)] = [] := rfl
        rw [this] at h
        simp [unescapeFrom] at h
      | cons d rest1 =>
        have hd : isControl d = false := by
          rcases hH.1 with h1 | h1
          · exact absurd rfl h1
          · simpa using h1
        rw [escapeSpec, List.headD_cons, transform_backslash, hd] at h
        simp only [Bool.false_eq_true, if_false, List.cons_append, List.nil_append] at h
        rw [unescapeFrom] at h
        cases hdec : decodeEscape (0x5c :: escapeSpec 0 (d :: rest1)) with
        | some bk =>
          exfalso
          obtain ⟨b, k⟩ := bk
          rw [hdec] at h
          exact decodeEscape_ne_backslash _ b k hdec (List.cons.inj h).1
        | none =>
          rw [hdec] at h
          have hrest := ih1 (List.cons.inj h).2
          rw [decodeEscape_backslash, escapeSpec_head_kept d rest1 hd hrest,
            readsAsEscape_escapeSpec] at hdec
          simp only [backslashesUnambiguous, Bool.and_eq_true, Bool.or_eq_true,
            decide_eq_true_eq, Bool.not_eq_true']
          exact ⟨Or.inr ⟨hd, hdec⟩, by simpa [backslashesUnambiguous] using hrest⟩
    · rw [escapeSpec, transform_plain c hp] at h
      simp only [List.cons_append, List.nil_append] at h
      rw [unescapeFrom_other c (plain_ne_backslash c hp)] at h
      exact hfree (plain_ne_backslash c hp) (List.cons.inj h).2

/-- The three ways in which two inputs without a backslash before a control byte share an
escaped form: a backslash before a named letter, a backslash before `x` and the digits of
a hexadecimal escape, and a backslash at the end. -/
theorem escape_collisions :
    escape (List.replicate 8 0) [0x5c, 0x6e] = escape (List.replicate 8 0) [0x0a] ∧
      escape (List.replicate 8 0) [0x5c, 0x78, 0x30, 0x31] = escape (List.replicate 8 0) [0x01] ∧
      escape (List.replicate 8 0) [0x5c] = escape (List.replicate 8 0) [] := by
  decide

/-! ## The chunks and the room of the Lua stack -/

theorem flush_sized (st : LoopState) (h5 : 5 ≤ st.buf.length)
    (hh : st.head + 1 ≤ st.buf.length) :
    (flush st).buf.length = st.buf.length ∧ (flush st).head + 5 ≤ st.buf.length ∧
      ∃ cs : List (List Byte),
        (flush st).L.stack = st.L.stack ++ cs.map LuaValue.string ∧
        (flush st).argc = st.argc + cs.length ∧
        cs.flatten ++ (flush st).buf.take (flush st).head = st.buf.take st.head ∧
        ∀ c ∈ cs, c.length + 1 ≤ st.buf.length ∧
          (st.buf.length < SIZE_MOD → st.buf.length ≤ c.length + 4) := by
  unfold flush
  split
  · rename_i hlt
    refine ⟨rfl, by simpa using h5, [st.buf.take st.head], by simp [lua_pushlstring], by simp,
      by simp, ?_⟩
    intro c hc
    simp only [List.mem_singleton] at hc
    subst hc
    have hlen : (st.buf.take st.head).length = st.head := by
      rw [List.length_take]; omega
    rw [hlen]
    refine ⟨hh, fun hM => ?_⟩
    have e : st.buf.length + SIZE_MOD - st.head = SIZE_MOD + (st.buf.length - st.head) := by
      omega
    rw [e, Nat.add_mod_left, Nat.mod_eq_of_lt (by omega)] at hlt
    omega
  · rename_i hlt
    refine ⟨rfl, ?_, [], by simp, by simp, by simp, by simp⟩
    by_contra hc
    apply hlt
    have : st.buf.length + SIZE_MOD - st.head = SIZE_MOD + (st.buf.length - st.head) := by omega
    rw [this, Nat.add_mod_left]
    exact lt_of_le_of_lt (Nat.mod_le _ _) (by omega)

theorem escape_step_sized (p : List Byte) (i : Nat) (st : LoopState) (c n : Byte)
    (hc : p[i]? = some c) (hn : p[i + 1]? = some n) (h5 : 5 ≤ st.buf.length)
    (hh : st.head + 1 ≤ st.buf.length) :
    ∃ st1 cs, escape_step p i st = some st1 ∧ ProducesSized st st1 (transform c n) cs := by
  obtain ⟨g1, g2, cs, g3, g4, g5, g6⟩ := flush_sized st h5 hh
  have hlen := transform_length_le c n
  obtain ⟨st1, h1, e1, e2, e3, e4, e5⟩ := puts_emits (transform c n) (flush st) (by omega)
  refine ⟨st1, cs, by rw [escape_step_eq_puts p i st c n hc hn, h1], by omega, by omega, ?_, ?_,
    ?_, g6⟩
  · rw [e4, g3]
  · rw [e5, g4]
  · rw [e3, ← List.append_assoc, g5]

theorem escape_loop_sized (t : Byte) (junk : List Byte) (xs : List Byte) :
    ∀ (pre : List Byte) (st : LoopState), 5 ≤ st.buf.length → st.head + 1 ≤ st.buf.length →
      ∃ st1 cs, escape_loop (pre ++ xs ++ t :: junk) xs.length pre.length st = some st1 ∧
        ProducesSized st st1 (escapeSpec t xs) cs := by
  induction xs with
  | nil =>
    intro pre st _ hh
    exact ⟨st, [], rfl, rfl, hh, by simp, by simp, by simp [escapeSpec], by simp⟩
  | cons x xs ih =>
    intro pre st h5 hh
    have hc : (pre ++ x :: xs ++ t :: junk)[pre.length]? = some x := by
      rw [List.append_assoc]
      exact (getElem?_storage pre _ 0).trans (by simp)
    have hn : (pre ++ x :: xs ++ t :: junk)[pre.length + 1]? = some (xs.headD t) := by
      rw [List.append_assoc, getElem?_storage pre _ 1]
      cases xs <;> simp
    obtain ⟨s1, cs1, h1, a1, a2, a3, a4, a5, a6⟩ := escape_step_sized _ _ st x _ hc hn h5 hh
    have hp : pre ++ x :: xs ++ t :: junk = (pre ++ [x]) ++ xs ++ t :: junk := by simp
    obtain ⟨s2, cs2, h2, b1, b2, b3, b4, b5, b6⟩ := ih (pre ++ [x]) s1 (by omega) a2
    refine ⟨s2, cs1 ++ cs2, ?_, by omega, b2, ?_, ?_, ?_, ?_⟩
    · simp only [List.length_cons, escape_loop, h1, Option.bind_eq_bind, Option.some_bind]
      rw [hp]
      simpa using h2
    · rw [b3, a3]; simp
    · rw [b4, a4]; simp; omega
    · simp only [List.flatten_append, List.append_assoc, escapeSpec]
      rw [b5, ← List.append_assoc, a5]; simp
    · intro c hcm
      rcases List.mem_append.mp hcm with hm | hm
      · exact a6 c hm
      · have := b6 c hm
        rw [a1] at this
        exact this

theorem escape_loop_bounded_eq (limit : Nat) (t : Byte) (junk : List Byte) (xs : List Byte) :
    ∀ (pre : List Byte) (st : LoopState), 5 ≤ st.buf.length → st.head + 1 ≤ st.buf.length →
      st.L.stack.length ≤ limit →
      escape_loop_bounded limit (pre ++ xs ++ t :: junk) xs.length pre.length st =
        (escape_loop (pre ++ xs ++ t :: junk) xs.length pre.length st).bind
          (loopInStack limit) := by
  induction xs with
  | nil =>
    intro pre st _ _ hl
    simp [escape_loop_bounded, escape_loop, loopInStack, hl]
  | cons x xs ih =>
    intro pre st h5 hh hl
    have hc : (pre ++ x :: xs ++ t :: junk)[pre.length]? = some x := by
      rw [List.append_assoc]
      exact (getElem?_storage pre _ 0).trans (by simp)
    have hn : (pre ++ x :: xs ++ t :: junk)[pre.length + 1]? = some (xs.headD t) := by
      rw [List.append_assoc, getElem?_storage pre _ 1]
      cases xs <;> simp
    obtain ⟨s1, cs1, h1, a1, a2, a3, _⟩ := escape_step_sized _ _ st x _ hc hn h5 hh
    have hp : pre ++ x :: xs ++ t :: junk = (pre ++ [x]) ++ xs ++ t :: junk := by simp
    have hlen : (pre ++ [x]).length = pre.length + 1 := by simp
    simp only [List.length_cons, escape_loop_bounded, escape_loop, h1, Option.bind_eq_bind,
      Option.some_bind]
    by_cases hin : s1.L.stack.length ≤ limit
    · have := ih (pre ++ [x]) s1 (by omega) a2 hin
      rw [← hp, hlen] at this
      simp only [loopInStack, hin, if_true, Option.some_bind]
      exact this
    · obtain ⟨s2, cs2, h2, _, _, b3, _⟩ := escape_loop_sized t junk xs (pre ++ [x]) s1
        (by omega) a2
      rw [← hp, hlen] at h2
      have hout : ¬ s2.L.stack.length ≤ limit := by
        rw [b3, List.length_append]; omega
      simp only [loopInStack, hin, if_false, Option.none_bind, h2, Option.some_bind, hout]

theorem length_le_flatten (k : Nat) (cs : List (List Byte)) (h : ∀ c ∈ cs, k ≤ c.length) :
    cs.length * k ≤ cs.flatten.length := by
  induction cs with
  | nil => simp
  | cons c cs ih =>
    have h1 := h c (List.mem_cons_self _ _)
    have h2 := ih (fun d hd => h d (List.mem_cons_of_mem _ hd))
    simp only [List.length_cons, List.flatten_cons, List.length_append, Nat.add_mul, Nat.one_mul]
    omega

theorem flatten_le_length (k : Nat) (cs : List (List Byte)) (h : ∀ c ∈ cs, c.length ≤ k) :
    cs.flatten.length ≤ cs.length * k := by
  induction cs with
  | nil => simp
  | cons c cs ih =>
    have h1 := h c (List.mem_cons_self _ _)
    have h2 := ih (fun d hd => h d (List.mem_cons_of_mem _ hd))
    simp only [List.length_cons, List.flatten_cons, List.length_append, Nat.add_mul, Nat.one_mul]
    omega

theorem lua_concat_strings_sized (base : List LuaValue) (cs : List (List Byte)) :
    ∃ L1, lua_concat { stack := base ++ cs.map LuaValue.string } cs.length = some L1 ∧
      topString L1 = some cs.flatten ∧ L1.stack.length = base.length + 1 := by
  match cs with
  | [] => exact ⟨_, rfl, by simp [topString, lua_pushlstring], by simp [lua_pushlstring]⟩
  | [c] => exact ⟨_, rfl, by simp [topString], by simp⟩
  | c :: d :: cs =>
    have hlen : (base ++ (c :: d :: cs).map LuaValue.string).length - (c :: d :: cs).length
        = base.length := by simp
    have hdrop : List.drop ((base ++ (c :: d :: cs).map LuaValue.string).length -
        (c :: d :: cs).length) (base ++ (c :: d :: cs).map LuaValue.string) =
        (c :: d :: cs).map LuaValue.string := by
      rw [hlen, List.drop_left]
    refine ⟨{ stack := List.take ((base ++ (c :: d :: cs).map LuaValue.string).length -
        (c :: d :: cs).length) (base ++ (c :: d :: cs).map LuaValue.string) ++
        [LuaValue.string (c :: d :: cs).flatten] }, ?_, by simp [topString], ?_⟩
    · unfold lua_concat
      rw [if_neg (by simp), if_neg (by simp), if_pos (by simp)]
      simp only [hdrop, mapM_concatText_strings]
    · rw [hlen, List.take_left]
      simp

theorem settop_one_length (L : lua_State) : (lua_settop L 1).stack.length = 1 := by
  simp only [lua_settop, List.length_append, List.length_take, List.length_replicate]
  omega

theorem escape_chunks_sized (buf S : List Byte) (t : Byte) (junk : List Byte) (L : lua_State)
    (hB : 5 ≤ buf.length) :
    ∃ (st : LoopState) (cs : List (List Byte)),
      escape_chunks buf (S ++ t :: junk) S.length L = some st ∧
      st.L.stack = (lua_settop L 1).stack ++ cs.map LuaValue.string ∧
      st.argc = cs.length ∧ cs.flatten = escapeSpec t S ∧
      (∀ c ∈ cs, c.length + 1 ≤ buf.length) ∧
      (buf.length < SIZE_MOD → ∀ k, (escapeSpec t S).length ≤ k * (buf.length - 4) →
        cs.length ≤ k) := by
  obtain ⟨st, cs, h1, a1, a2, a3, a4, a5, a6⟩ := escape_loop_sized t junk S []
    { buf := buf, head := 0, argc := 0, L := lua_settop L 1 } hB (by simp only; omega)
  simp only [List.nil_append, List.length_nil, List.take_zero, Nat.zero_add] at h1 a1 a3 a4 a5 a6
  have hlow : buf.length < SIZE_MOD → cs.length * (buf.length - 4) ≤ cs.flatten.length :=
    fun hM => length_le_flatten _ cs (fun c hc => by have := (a6 c hc).2 hM; omega)
  have hm := congrArg List.length a5
  rw [List.length_append] at hm
  by_cases hh : st.head = 0
  · refine ⟨st, cs, ?_, a3, a4, ?_, fun c hc => (a6 c hc).1, ?_⟩
    · simp only [escape_chunks, h1, Option.bind_eq_bind, Option.some_bind, hh, ne_eq,
        not_true_eq_false, if_false]
    · rw [← a5, hh]; simp
    · intro hM k hk
      have h2 := hlow hM
      rw [← hm] at hk
      exact Nat.le_of_mul_le_mul_right (le_trans h2 (le_trans (Nat.le_add_right _ _) hk))
        (by omega)
  · have htake : (st.buf.take st.head).length = st.head := by
      rw [List.length_take]; omega
    refine ⟨{ st with L := lua_pushlstring st.L (st.buf.take st.head), argc := st.argc + 1 },
      cs ++ [st.buf.take st.head], ?_, ?_, ?_, ?_, ?_, ?_⟩
    · simp only [escape_chunks, h1, Option.bind_eq_bind, Option.some_bind, hh, ne_eq,
        not_false_eq_true, if_true]
    · simp [lua_pushlstring, a3]
    · simp [a4]
    · rw [← a5]; simp
    · intro c hc
      rcases List.mem_append.mp hc with hm1 | hm1
      · exact (a6 c hm1).1
      · simp only [List.mem_singleton] at hm1
        rw [hm1, htake, ← a1]
        exact a2
    · intro hM k hk
      have h2 := hlow hM
      rw [← hm, htake] at hk
      have h3 : cs.length * (buf.length - 4) < k * (buf.length - 4) := by omega
      have h4 : cs.length < k := Nat.lt_of_mul_lt_mul_right h3
      simp only [List.length_append, List.length_singleton]
      omega

theorem escape_chunks_bounded_eq (limit : Nat) (buf S : List Byte) (t : Byte)
    (junk : List Byte) (L : lua_State) (hB : 5 ≤ buf.length) (hl : 1 ≤ limit) :
    escape_chunks_bounded limit buf (S ++ t :: junk) S.length L =
      (escape_chunks buf (S ++ t :: junk) S.length L).bind (loopInStack limit) := by
  have hb := escape_loop_bounded_eq limit t junk S []
    { buf := buf, head := 0, argc := 0, L := lua_settop L 1 } hB (by simp only; omega)
    (by simp only [settop_one_length]; exact hl)
  obtain ⟨st, cs, h1, _⟩ := escape_loop_sized t junk S []
    { buf := buf, head := 0, argc := 0, L := lua_settop L 1 } hB (by simp only; omega)
  simp only [List.nil_append, List.length_nil] at hb h1
  simp only [escape_chunks_bounded, escape_chunks, hb, h1, Option.bind_eq_bind,
    Option.some_bind]
  by_cases hin : st.L.stack.length ≤ limit
  · simp only [loopInStack, hin, if_true, Option.some_bind]
    split
    · rfl
    · simp only [Option.some_bind, hin, if_true]
  · have hout : ¬ (lua_pushlstring st.L (st.buf.take st.head)).stack.length ≤ limit := by
      simp only [lua_pushlstring, List.length_append, List.length_singleton]; omega
    simp only [loopInStack, hin, if_false, Option.none_bind]
    split
    · simp only [Option.some_bind, hout, if_false]
    · simp only [Option.some_bind, hin, if_false]

/-- The body of `escape_lua` on a stack with room for `limit` values, for a non-empty
string: the chunks it pushes hold the transform of the string, each has fewer bytes than
the buffer, and the run is that of `escape_body` when the chunks fit in the stack, and
undefined otherwise. -/
theorem escape_body_bounded_spec (limit : Nat) (buf S : List Byte) (t : Byte)
    (junk : List Byte) (L : lua_State) (hB : 5 ≤ buf.length) (hS : S ≠ []) (hl : 2 ≤ limit) :
    ∃ cs : List (List Byte), cs.flatten = escapeSpec t S ∧
      (∀ c ∈ cs, c.length + 1 ≤ buf.length) ∧
      (buf.length < SIZE_MOD → ∀ k, (escapeSpec t S).length ≤ k * (buf.length - 4) →
        cs.length ≤ k) ∧
      escape_body_bounded limit buf (S ++ t :: junk) S.length L =
        if cs.length + 1 ≤ limit then escape_body buf (S ++ t :: junk) S.length L
        else none := by
  obtain ⟨st, cs, h1, a1, a2, a3, a4, a5⟩ := escape_chunks_sized buf S t junk L hB
  refine ⟨cs, a3, a4, a5, ?_⟩
  have hlen : S.length ≠ 0 := fun h => hS (List.length_eq_zero.mp h)
  have hst : st.L = { stack := (lua_settop L 1).stack ++ cs.map LuaValue.string } := by
    cases hL : st.L; rw [hL] at a1; simpa using a1
  obtain ⟨L1, c1, _, c3⟩ := lua_concat_strings_sized (lua_settop L 1).stack cs
  rw [settop_one_length] at c3
  simp only [escape_body_bounded, escape_body, hlen, if_false,
    escape_chunks_bounded_eq limit buf S t junk L hB (by omega), h1, Option.bind_eq_bind,
    Option.some_bind, loopInStack]
  have hsl : st.L.stack.length = cs.length + 1 := by
    rw [a1, List.length_append, settop_one_length, List.length_map]; omega
  have hc : lua_concat st.L st.argc = some L1 := by rw [a2, hst]; exact c1
  have h2 : L1.stack.length ≤ limit := by omega
  rw [hsl, hc]
  by_cases h : cs.length + 1 ≤ limit
  · rw [if_pos h, if_pos h]
    simp only [Option.some_bind, hc, inStack, h2, if_true]
  · rw [if_neg h, if_neg h]
    rfl

/-! ## The call under Lua's guarantee -/

theorem escape_lua_of_other (buf : List Byte) (L : lua_State)
    (h : textOf L.stack[0]? = none) :
    escape_lua buf L = some (Except.error (LuaError.typeerror 1 L.stack[0]?)) := by
  cases h0 : L.stack[0]? with
  | none => simp only [escape_lua, luaL_checklstring, Nat.sub_self, h0]
  | some v =>
    rw [h0] at h
    cases v <;> first
      | (simp [textOf] at h; done)
      | simp only [escape_lua, luaL_checklstring, Nat.sub_self, h0]

theorem escape_lua_of_text (buf : List Byte) (L : lua_State) (s : List Byte)
    (h : textOf L.stack[0]? = some s) :
    ∃ L1 : lua_State, L1.stack.length = L.stack.length ∧ escape_lua buf L =
      match escape_body_bounded (L.stack.length + LUA_MINSTACK) buf (s ++ [0]) s.length L1 with
      | some L2 => some (Except.ok L2)
      | none => none := by
  cases h0 : L.stack[0]? with
  | none => rw [h0] at h; simp [textOf] at h
  | some v =>
    rw [h0] at h
    cases v with
    | string s1 =>
      obtain rfl : s1 = s := by simpa [textOf] using h
      exact ⟨L, rfl, by simp only [escape_lua, luaL_checklstring, Nat.sub_self, h0]⟩
    | number t =>
      obtain rfl : t = s := by simpa [textOf] using h
      exact ⟨{ stack := L.stack.set 0 (LuaValue.string t) }, by simp,
        by simp only [escape_lua, luaL_checklstring, Nat.sub_self, h0]⟩
    | nil => simp [textOf] at h
    | boolean b => simp [textOf] at h
    | lightuserdata a => simp [textOf] at h
    | table a => simp [textOf] at h
    | function a => simp [textOf] at h
    | userdata a => simp [textOf] at h
    | thread a => simp [textOf] at h

theorem stack_pos_of_text (L : lua_State) (s : List Byte) (h : textOf L.stack[0]? = some s) :
    1 ≤ L.stack.length := by
  cases hs : L.stack with
  | nil => rw [hs] at h; simp [textOf] at h
  | cons v rest => simp

/-- Whenever the run of `escape_lua` on a string or number is defined, it returns the
transform of the text. -/
theorem escape_lua_result (buf : List Byte) (L L2 : lua_State) (s : List Byte)
    (hB : 5 ≤ buf.length) (h : textOf L.stack[0]? = some s)
    (hr : escape_lua buf L = some (Except.ok L2)) :
    topString L2 = some (escapeSpec 0 s) := by
  obtain ⟨L1, hL1, h1⟩ := escape_lua_of_text buf L s h
  rw [h1] at hr
  by_cases hs : s = []
  · subst hs
    simp only [escape_body_bounded, List.length_nil, if_true, inStack] at hr
    split at hr
    · rename_i L3 h3
      split at h3
      · simp only [Option.some.injEq] at h3 hr
        cases hr
        rw [← h3]
        simp [topString, lua_pushliteral, lua_pushlstring, escapeSpec]
      · simp at h3
    · simp at hr
  · obtain ⟨cs, _, _, _, e⟩ := escape_body_bounded_spec (L.stack.length + LUA_MINSTACK) buf s 0
      [] L1 hB hs (by simp only [LUA_MINSTACK]; omega)
    rw [e] at hr
    obtain ⟨L3, b1, b2⟩ := escape_body_spec buf s 0 [] L1 hB
    rw [b1] at hr
    split at hr
    · rename_i L4 h4
      split at h4
      · simp only [Option.some.injEq] at h4 hr
        cases hr
        rw [← h4]
        exact b2
      · simp at h4
    · simp at hr

/-- Whenever the run of `escape_lua` on a string is defined, it returns the text that
`escape` gives. -/
theorem escape_lua_agrees_escape (buf S : List Byte) (L2 : lua_State) (hB : 5 ≤ buf.length)
    (hr : escape_lua buf { stack := [LuaValue.string S] } = some (Except.ok L2)) :
    topString L2 = escape buf S := by
  rw [escape_eq_escapeSpec buf S hB]
  exact escape_lua_result buf { stack := [LuaValue.string S] } L2 S hB rfl hr

/-- The run of `escape_lua` on a string or number is defined when the escaped form of the
text has at most `LUA_MINSTACK * (BUFSIZ - 4)` bytes. -/
theorem escape_lua_returns (buf : List Byte) (L : lua_State) (s : List Byte)
    (hB : 5 ≤ buf.length) (hM : buf.length < SIZE_MOD) (h : textOf L.stack[0]? = some s)
    (hfit : (escapeSpec 0 s).length ≤ LUA_MINSTACK * (buf.length - 4)) :
    ∃ L2, escape_lua buf L = some (Except.ok L2) ∧ topString L2 = some (escapeSpec 0 s) := by
  obtain ⟨L1, hL1, h1⟩ := escape_lua_of_text buf L s h
  have hpos := stack_pos_of_text L s h
  have key : ∃ L2, escape_lua buf L = some (Except.ok L2) := by
    rw [h1]
    by_cases hs : s = []
    · subst hs
      have hroom : (lua_pushliteral L1 []).stack.length ≤ L.stack.length + LUA_MINSTACK := by
        simp only [lua_pushliteral, lua_pushlstring, List.length_append, List.length_singleton,
          hL1, LUA_MINSTACK]
        omega
      simp only [escape_body_bounded, List.length_nil, if_true, inStack, hroom]
      exact ⟨_, rfl⟩
    · obtain ⟨cs, _, _, a5, e⟩ := escape_body_bounded_spec (L.stack.length + LUA_MINSTACK)
        buf s 0 [] L1 hB hs (by simp only [LUA_MINSTACK]; omega)
      have hcs := a5 hM LUA_MINSTACK hfit
      obtain ⟨L3, b1, _⟩ := escape_body_spec buf s 0 [] L1 hB
      rw [e, if_pos (by omega), b1]
      exact ⟨L3, rfl⟩
  obtain ⟨L2, h2⟩ := key
  exact ⟨L2, h2, escape_lua_result buf L L2 s hB h h2⟩

/-- The run of `escape_lua` on one argument is undefined when the escaped form of its text
has more than `LUA_MINSTACK * (BUFSIZ - 1)` bytes: the chunks do not fit in the stack. -/
theorem escape_lua_overflow (buf : List Byte) (v : LuaValue) (s : List Byte)
    (hB : 5 ≤ buf.length) (h : textOf (some v) = some s)
    (hlong : LUA_MINSTACK * (buf.length - 1) < (escapeSpec 0 s).length) :
    escape_lua buf { stack := [v] } = none := by
  obtain ⟨L1, hL1, h1⟩ := escape_lua_of_text buf { stack := [v] } s (by simpa using h)
  have hs : s ≠ [] := by
    intro hs
    rw [hs] at hlong
    simp [escapeSpec] at hlong
  obtain ⟨cs, a3, a4, _, e⟩ := escape_body_bounded_spec
    (([v] : List LuaValue).length + LUA_MINSTACK) buf s 0 [] L1 hB hs
    (by simp only [LUA_MINSTACK]; omega)
  have hup := flatten_le_length (buf.length - 1) cs (fun c hc => by have := a4 c hc; omega)
  rw [a3] at hup
  have hmany : ¬ cs.length + 1 ≤ ([v] : List LuaValue).length + LUA_MINSTACK := by
    intro hle
    simp only [List.length_singleton] at hle
    have h20 : cs.length ≤ LUA_MINSTACK := by omega
    have := Nat.mul_le_mul_right (buf.length - 1) h20
    omega
  rw [h1, e, if_neg hmany]

/-! ## The claims -/

theorem escape_lua_21_bytes_undefined :
    escape_lua (List.replicate 5 0) { stack := [LuaValue.string (List.replicate 21 0x61)] } =
      none := by
  rfl

theorem escape_lua_20_bytes_defined :
    escape_lua (List.replicate 5 0) { stack := [LuaValue.string (List.replicate 20 0x61)] } =
      some (Except.ok { stack := [LuaValue.string (List.replicate 20 0x61),
        LuaValue.string (List.replicate 20 0x61)] }) := by
  rfl

/-- C1 is broken by the code: `escape_lua` pushes one chunk per flush without
`lua_checkstack`, and Lua gives it room for `LUA_MINSTACK = 20` values. For every working
buffer of capacity `B` at least five and every string whose escaped form has more than
`20 * (B - 1)` bytes, the call does not return the concatenation of the transforms: its run
pushes past the room of the stack and is undefined. -/
theorem C1_long_input_overflows_stack (buf S : List Byte) (hB : 5 ≤ buf.length)
    (hlong : LUA_MINSTACK * (buf.length - 1) < (escapeSpec 0 S).length) :
    escape_lua buf { stack := [LuaValue.string S] } = none :=
  escape_lua_overflow buf (LuaValue.string S) S hB rfl hlong

set_option maxRecDepth 100000 in
theorem C1_long_input_overflows_stack_witness :
    5 ≤ (List.replicate 5 (0 : Byte)).length ∧
      LUA_MINSTACK * ((List.replicate 5 (0 : Byte)).length - 1) <
        (escapeSpec 0 (List.replicate 81 0x61)).length ∧
      escape_lua (List.replicate 5 0) { stack := [LuaValue.string (List.replicate 81 0x61)] } =
        none :=
  ⟨by decide, by decide, C1_long_input_overflows_stack (List.replicate 5 0)
    (List.replicate 81 0x61) (by decide) (by decide)⟩

/-- C3 is broken by the code: the capacity decides how many chunks are pushed on the Lua
stack, which has room for `LUA_MINSTACK = 20` values. For every string whose escaped form
has more than `20 * (B1 - 1)` bytes and at most `20 * (B2 - 4)` bytes, the run with
capacity `B1` is undefined while the run with capacity `B2` returns the escaped form. -/
theorem C3_capacity_decides_overflow (S buf1 buf2 : List Byte)
    (h1 : 5 ≤ buf1.length) (h2 : 5 ≤ buf2.length) (hM : buf2.length < SIZE_MOD)
    (hlong : LUA_MINSTACK * (buf1.length - 1) < (escapeSpec 0 S).length)
    (hfit : (escapeSpec 0 S).length ≤ LUA_MINSTACK * (buf2.length - 4)) :
    escape_lua buf1 { stack := [LuaValue.string S] } = none ∧
      ∃ L1, escape_lua buf2 { stack := [LuaValue.string S] } = some (Except.ok L1) ∧
        topString L1 = some (escapeSpec 0 S) :=
  ⟨escape_lua_overflow buf1 (LuaValue.string S) S h1 rfl hlong,
    escape_lua_returns buf2 { stack := [LuaValue.string S] } S h2 hM rfl hfit⟩

set_option maxRecDepth 100000 in
theorem C3_capacity_decides_overflow_witness :
    5 ≤ (List.replicate 5 (0 : Byte)).length ∧ 5 ≤ (List.replicate 30 (0 : Byte)).length ∧
      (List.replicate 30 (0 : Byte)).length < SIZE_MOD ∧
      LUA_MINSTACK * ((List.replicate 5 (0 : Byte)).length - 1) <
        (escapeSpec 0 (List.replicate 81 0x61)).length ∧
      (escapeSpec 0 (List.replicate 81 0x61)).length ≤
        LUA_MINSTACK * ((List.replicate 30 (0 : Byte)).length - 4) ∧
      escape_lua (List.replicate 5 0) { stack := [LuaValue.string (List.replicate 81 0x61)] } =
        none ∧
      ∃ L1, escape_lua (List.replicate 30 0)
          { stack := [LuaValue.string (List.replicate 81 0x61)] } = some (Except.ok L1) ∧
        topString L1 = some (escapeSpec 0 (List.replicate 81 0x61)) :=
  ⟨by decide, by decide, by decide, by decide, by decide,
    C3_capacity_decides_overflow (List.replicate 81 0x61) (List.replicate 5 0)
      (List.replicate 30 0) (by decide) (by decide) (by decide) (by decide) (by decide)⟩

/-- C6: hexadecimal escape. For every byte `c` in `0x01`-`0x06`, `0x0E`-`0x1F` or equal
to `0x7F`, `escape` of the one-byte sequence `c` is exactly four bytes: backslash, `x`, and
two characters of `"0123456789abcdef"` whose positions `v1`, `v0` in that string satisfy
`16 * v1 + v0 = c`. In particular `escape` of `0x01` is backslash, `x`, `0`, `1`. -/
theorem C6_hex_escape (buf : List Byte) (c : Byte) (hB : 5 ≤ buf.length)
    (hc : (0x01 ≤ c.val ∧ c.val ≤ 0x06) ∨ (0x0e ≤ c.val ∧ c.val ≤ 0x1f) ∨ c.val = 0x7f) :
    (∃ (v1 v0 : Nat) (h1 h0 : Byte), lowerHex[v1]? = some h1 ∧ lowerHex[v0]? = some h0 ∧
        16 * v1 + v0 = c.val ∧ escape buf [c] = some [0x5c, 0x78, h1, h0]) ∧
      escape buf [0x01] = some [0x5c, 0x78, 0x30, 0x31] := by
  have hx : isHexEscaped c = true := by
    simp only [isHexEscaped, Bool.or_eq_true, Bool.and_eq_true, decide_eq_true_eq]
    omega
  refine ⟨⟨c.val / 16, c.val % 16, hexDigit (c.val / 16), hexDigit (c.val % 16),
    lowerHex_hi c, lowerHex_lo c, by omega, ?_⟩, ?_⟩
  · rw [escape_eq_escapeSpec buf _ hB, escapeSpec, transform_hex c hx]
    rfl
  · rw [escape_eq_escapeSpec buf _ hB]
    rfl

theorem C6_hex_escape_witness :
    5 ≤ (List.replicate 5 (0 : Byte)).length ∧
      ((0x01 ≤ (0x7f : Byte).val ∧ (0x7f : Byte).val ≤ 0x06) ∨
        (0x0e ≤ (0x7f : Byte).val ∧ (0x7f : Byte).val ≤ 0x1f) ∨ (0x7f : Byte).val = 0x7f) ∧
      (∃ (v1 v0 : Nat) (h1 h0 : Byte), lowerHex[v1]? = some h1 ∧ lowerHex[v0]? = some h0 ∧
        16 * v1 + v0 = (0x7f : Byte).val ∧
        escape (List.replicate 5 0) [0x7f] = some [0x5c, 0x78, h1, h0]) ∧
      escape (List.replicate 5 0) [0x01] = some [0x5c, 0x78, 0x30, 0x31] :=
  ⟨by decide, by decide, C6_hex_escape (List.replicate 5 0) 0x7f (by decide) (by decide)⟩


/-- C10: `escape` of the empty byte sequence is the empty text, for a working buffer of
any capacity, and it is returned by the length-zero short-circuit: whatever the storage
and the stack, the body of `escape_lua` run with length zero only pushes the literal `""`,
so that the stack keeps the other arguments (no `lua_settop`) and gets exactly one more
value, no flushed chunk. -/
theorem C10_escape_empty :
    (∀ buf : List Byte, escape buf [] = some []) ∧
      (∀ (buf p : List Byte) (L : lua_State),
        escape_body buf p 0 L = some (lua_pushliteral L [])) ∧
      (∀ (buf : List Byte) (others : List LuaValue),
        escape_lua buf { stack := LuaValue.string [] :: others } =
          some (Except.ok { stack := LuaValue.string [] :: others ++ [LuaValue.string []] })) :=
  ⟨fun _ => rfl, fun _ _ _ => rfl, fun _ _ => by
    simp [escape_lua, luaL_checklstring, escape_body_bounded, inStack, lua_pushliteral,
      lua_pushlstring, LUA_MINSTACK]⟩

/-! ## The argument check of `escape_lua` -/

/-- C11 fails as stated, in two ways. Called with the number `42`, `escape_lua` raises no
error although the argument is not a string: `luaL_checklstring` converts the number and
the function returns the text `42`. And it does not return for every string: with a
working buffer of five bytes, the string of twenty-one bytes `a` needs twenty-one chunks,
one more than the stack has room for, and the run is undefined. -/
theorem C11_counterexample :
    (¬ ∀ (buf : List Byte) (L : lua_State), 5 ≤ buf.length →
      ((∃ e, escape_lua buf L = some (Except.error e)) ↔ isString L.stack[0]? = false)) ∧
    (¬ ∀ (buf : List Byte) (L : lua_State), 5 ≤ buf.length → isString L.stack[0]? = true →
      ∃ L1, escape_lua buf L = some (Except.ok L1)) := by
  constructor
  · intro h
    obtain ⟨e, he⟩ := (h (List.replicate 8 0) { stack := [LuaValue.number [0x34, 0x32]] }
      (by decide)).mpr (by decide)
    have hok : escape_lua (List.replicate 8 0) { stack := [LuaValue.number [0x34, 0x32]] } =
        some (Except.ok
          { stack := [LuaValue.string [0x34, 0x32], LuaValue.string [0x34, 0x32]] }) := by
      rfl
    rw [hok] at he
    simp at he
  · intro h
    obtain ⟨L1, h1⟩ := h (List.replicate 5 0)
      { stack := [LuaValue.string (List.replicate 21 0x61)] } (by decide) (by decide)
    rw [escape_lua_21_bytes_undefined] at h1
    simp at h1

/-- C11, amended: `escape` raises an argument-type error if and only if its first
argument is absent or is neither a string nor a number, and the error is raised by the
argument check, whatever the working buffer, before anything is pushed. A string, and a
number (which is converted to its text), raise no error; when the call returns it returns
the escaped form of the text, and it does return when that escaped form has at most
`LUA_MINSTACK * (BUFSIZ - 4)` bytes. -/
theorem C11_argument_check (buf : List Byte) (L : lua_State) (hB : 5 ≤ buf.length) :
    ((∃ e, escape_lua buf L = some (Except.error e)) ↔ textOf L.stack[0]? = none) ∧
      (textOf L.stack[0]? = none → ∀ buf1 : List Byte,
        escape_lua buf1 L = some (Except.error (LuaError.typeerror 1 L.stack[0]?))) ∧
      (∀ s L1, textOf L.stack[0]? = some s → escape_lua buf L = some (Except.ok L1) →
        topString L1 = some (escapeSpec 0 s)) ∧
      (∀ s, textOf L.stack[0]? = some s → buf.length < SIZE_MOD →
        (escapeSpec 0 s).length ≤ LUA_MINSTACK * (buf.length - 4) →
        ∃ L1, escape_lua buf L = some (Except.ok L1) ∧
          topString L1 = some (escapeSpec 0 s)) := by
  refine ⟨⟨?_, ?_⟩, ?_, ?_, ?_⟩
  · rintro ⟨e, he⟩
    cases ht : textOf L.stack[0]? with
    | none => rfl
    | some s =>
      exfalso
      obtain ⟨L1, _, h1⟩ := escape_lua_of_text buf L s ht
      rw [h1] at he
      split at he <;> simp at he
  · intro ht
    exact ⟨_, escape_lua_of_other buf L ht⟩
  · intro ht buf1
    exact escape_lua_of_other buf1 L ht
  · intro s L1 ht hr
    exact escape_lua_result buf L L1 s hB ht hr
  · intro s ht hM hfit
    exact escape_lua_returns buf L s hB hM ht hfit

theorem C11_argument_check_witness :
    5 ≤ (List.replicate 5 (0 : Byte)).length ∧
      ∃ L1, escape_lua (List.replicate 5 0) { stack := [LuaValue.number [0x34, 0x32]] } =
          some (Except.ok L1) ∧ topString L1 = some (escapeSpec 0 [0x34, 0x32]) :=
  ⟨by decide, (C11_argument_check (List.replicate 5 0)
    { stack := [LuaValue.number [0x34, 0x32]] } (by decide)).2.2.2 [0x34, 0x32] rfl
      (by decide) (by decide)⟩

/-! ## `torawstring_lua` returns for every value -/

theorem lua_type_cons (v : LuaValue) (rest : List LuaValue) :
    lua_type { stack := v :: rest } 1 = v.type := by
  simp [lua_type]

theorem topString_pushlstring (L : lua_State) (s : List Byte) :
    topString (lua_pushlstring L s) = some s := by
  unfold topString lua_pushlstring
  simp only [List.getLast?_concat]

theorem length_pushlstring (L : lua_State) (s : List Byte) :
    (lua_pushlstring L s).stack.length = L.stack.length + 1 := by
  simp [lua_pushlstring]

theorem torawstring_lua_of_value (host : Host) (v : LuaValue) (rest : List LuaValue) :
    ∃ L1 s, torawstring_lua host { stack := v :: rest } = Except.ok L1 ∧
      topString L1 = some s ∧ L1.stack.length = rest.length + 2 := by
  unfold torawstring_lua
  rw [lua_type_cons]
  cases v with
  | boolean b =>
    cases b <;>
      simp [LuaValue.type, lua_toboolean, lua_pushliteral, topString_pushlstring,
        length_pushlstring]
  | number t =>
    simp [LuaValue.type, lua_tostring, lua_pushstring, topString_pushlstring,
      length_pushlstring]
  | string s =>
    simp [LuaValue.type, lua_tostring, topString_pushlstring, length_pushlstring]
  | _ => simp [LuaValue.type, lua_pushliteral, topString_pushlstring, length_pushlstring]

theorem torawstring_lua_literals (host : Host) (rest : List LuaValue) :
    torawstring_lua host { stack := LuaValue.nil :: rest } =
        Except.ok { stack := LuaValue.nil :: rest ++ [LuaValue.string [0x6e, 0x69, 0x6c]] } ∧
      torawstring_lua host { stack := LuaValue.boolean true :: rest } =
        Except.ok { stack := LuaValue.boolean true :: rest ++
          [LuaValue.string [0x74, 0x72, 0x75, 0x65]] } ∧
      torawstring_lua host { stack := LuaValue.boolean false :: rest } =
        Except.ok { stack := LuaValue.boolean false :: rest ++
          [LuaValue.string [0x66, 0x61, 0x6c, 0x73, 0x65]] } := by
  unfold torawstring_lua
  simp only [lua_type_cons]
  simp [LuaValue.type, lua_toboolean, lua_pushliteral, lua_pushlstring]

/-- C12: `torawstring` raises an argument error if and only if no argument is supplied.
For every supplied value of any kind it returns, having pushed exactly one value, a text,
which is `nil` for nil, `true` for true and `false` for false. -/
theorem C12_torawstring_total (host : Host) (L : lua_State) :
    ((∃ e, torawstring_lua host L = Except.error e) ↔ L.stack = []) ∧
      (torawstring_lua host { stack := [] } = Except.error (LuaError.argerror 1)) ∧
      (∀ (v : LuaValue) (rest : List LuaValue), ∃ L1 s,
        torawstring_lua host { stack := v :: rest } = Except.ok L1 ∧
          topString L1 = some s ∧ L1.stack.length = rest.length + 2) ∧
      (∀ rest : List LuaValue, torawstring_lua host { stack := LuaValue.nil :: rest } =
        Except.ok { stack := LuaValue.nil :: rest ++ [LuaValue.string [0x6e, 0x69, 0x6c]] }) ∧
      (∀ rest : List LuaValue, torawstring_lua host { stack := LuaValue.boolean true :: rest } =
        Except.ok { stack := LuaValue.boolean true :: rest ++
          [LuaValue.string [0x74, 0x72, 0x75, 0x65]] }) ∧
      (∀ rest : List LuaValue, torawstring_lua host { stack := LuaValue.boolean false :: rest } =
        Except.ok { stack := LuaValue.boolean false :: rest ++
          [LuaValue.string [0x66, 0x61, 0x6c, 0x73, 0x65]] }) := by
  refine ⟨⟨?_, ?_⟩, rfl, torawstring_lua_of_value host,
    fun rest => (torawstring_lua_literals host rest).1,
    fun rest => (torawstring_lua_literals host rest).2.1,
    fun rest => (torawstring_lua_literals host rest).2.2⟩
  · rintro ⟨e, he⟩
    obtain ⟨stack⟩ := L
    cases stack with
    | nil => rfl
    | cons v rest =>
      obtain ⟨L1, s, h1, _⟩ := torawstring_lua_of_value host v rest
      rw [h1] at he
      simp at he
  · intro h
    obtain ⟨stack⟩ := L
    subst h
    exact ⟨_, rfl⟩

/-! ## The write cursor stays inside the buffer -/

theorem flush_head_le (st : LoopState) (h : BufOk st) :
    (flush st).buf.length = st.buf.length ∧ (flush st).head + 5 ≤ st.buf.length := by
  obtain ⟨h5, hh⟩ := h
  unfold flush
  split
  · exact ⟨rfl, by simpa using h5⟩
  · rename_i hlt
    refine ⟨rfl, ?_⟩
    by_contra hc
    apply hlt
    have : st.buf.length + SIZE_MOD - st.head = SIZE_MOD + (st.buf.length - st.head) := by omega
    rw [this, Nat.add_mod_left]
    exact lt_of_le_of_lt (Nat.mod_le _ _) (by omega)

theorem escape_loop_upto (buf S : List Byte) (t : Byte) (junk : List Byte) (L : lua_State)
    (hB : 5 ≤ buf.length) (k : Nat) (hk : k < S.length) :
    ∃ st c n, escape_loop (S ++ t :: junk) k 0 (loopInit buf L) = some st ∧
      st.buf.length = buf.length ∧ st.head ≤ buf.length ∧
      (S ++ t :: junk)[k]? = some c ∧ (S ++ t :: junk)[k + 1]? = some n := by
  have hS : S = S.take k ++ S[k] :: S.drop (k + 1) := by
    rw [← List.drop_eq_getElem_cons hk, List.take_append_drop]
  have hp : S ++ t :: junk = [] ++ S.take k ++ S[k] :: (S.drop (k + 1) ++ t :: junk) := by
    rw [List.nil_append, ← List.cons_append, ← List.append_assoc, ← hS]
  have hlen : (S.take k).length = k := by
    rw [List.length_take]; omega
  obtain ⟨st, h1, a1, a2, _⟩ := escape_loop_spec S[k] (S.drop (k + 1) ++ t :: junk)
    (S.take k) [] (loopInit buf L) ⟨hB, Nat.zero_le _⟩
  rw [← hp, hlen] at h1
  have hk1 : k + 1 < (S ++ t :: junk).length := by
    simp only [List.length_append, List.length_cons]; omega
  refine ⟨st, S[k], (S ++ t :: junk)[k + 1], h1, a1, ?_, ?_, ?_⟩
  · rw [a1] at a2; exact a2
  · rw [List.getElem?_append_left hk, List.getElem?_eq_getElem hk]
  · exact List.getElem?_eq_getElem hk1

/-- C13: buffer safety of the flush threshold. For every byte sequence `S` and working
buffer of capacity `B` at least five, at every iteration `k` the loop reaches a state whose
write cursor satisfies `head ≤ B`, so that the `size_t` subtraction `B - head` does not wrap;
after the flush test `head ≤ B - 5`; and the writes `buf[head++]` of the iteration, at most
four, all use an index strictly less than `B` and succeed, leaving `head ≤ B`. -/
theorem C13_buffer_safety (buf S : List Byte) (t : Byte) (junk : List Byte) (L : lua_State)
    (hB : 5 ≤ buf.length) (k : Nat) (hk : k < S.length) :
    ∃ st st1 bs,
      escape_loop (S ++ t :: junk) k 0 (loopInit buf L) = some st ∧
        st.buf.length = buf.length ∧ st.head ≤ buf.length ∧
        (buf.length < SIZE_MOD →
          (st.buf.length + SIZE_MOD - st.head) % SIZE_MOD = buf.length - st.head) ∧
        (flush st).buf.length = buf.length ∧ (flush st).head + 5 ≤ buf.length ∧
        escape_step (S ++ t :: junk) k st = puts (flush st) bs ∧ bs.length ≤ 4 ∧
        (∀ j, j < bs.length → (flush st).head + j < buf.length) ∧
        puts (flush st) bs = some st1 ∧ st1.buf.length = buf.length ∧
        st1.head ≤ buf.length := by
  obtain ⟨st, c, n, h1, a1, a2, hc, hn⟩ := escape_loop_upto buf S t junk L hB k hk
  obtain ⟨f1, f2⟩ := flush_head_le st ⟨by rw [a1]; exact hB, by rw [a1]; exact a2⟩
  have hlen := transform_length_le c n
  obtain ⟨st1, p1, e1, e2, _⟩ := puts_emits (transform c n) (flush st) (by omega)
  refine ⟨st, st1, transform c n, h1, a1, a2, ?_, by omega, by omega,
    escape_step_eq_puts _ k st c n hc hn, hlen, ?_, p1, by omega, by omega⟩
  · intro hlt
    rw [a1]
    have : buf.length + SIZE_MOD - st.head = SIZE_MOD + (buf.length - st.head) := by omega
    rw [this, Nat.add_mod_left]
    exact Nat.mod_eq_of_lt (by omega)
  · intro j hj
    omega

theorem C13_buffer_safety_witness :
    5 ≤ (List.replicate 5 (0 : Byte)).length ∧ 2 < [(0x01 : Byte), 0x02, 0x03].length ∧
      ∃ st st1 bs,
        escape_loop ([0x01, 0x02, 0x03] ++ (0 : Byte) :: []) 2 0
            (loopInit (List.replicate 5 0) { stack := [] }) = some st ∧
          st.buf.length = (List.replicate 5 (0 : Byte)).length ∧
          st.head ≤ (List.replicate 5 (0 : Byte)).length ∧
          ((List.replicate 5 (0 : Byte)).length < SIZE_MOD →
            (st.buf.length + SIZE_MOD - st.head) % SIZE_MOD =
              (List.replicate 5 (0 : Byte)).length - st.head) ∧
          (flush st).buf.length = (List.replicate 5 (0 : Byte)).length ∧
          (flush st).head + 5 ≤ (List.replicate 5 (0 : Byte)).length ∧
          escape_step ([0x01, 0x02, 0x03] ++ (0 : Byte) :: []) 2 st = puts (flush st) bs ∧
          bs.length ≤ 4 ∧
          (∀ j, j < bs.length → (flush st).head + j < (List.replicate 5 (0 : Byte)).length) ∧
          puts (flush st) bs = some st1 ∧
          st1.buf.length = (List.replicate 5 (0 : Byte)).length ∧
          st1.head ≤ (List.replicate 5 (0 : Byte)).length :=
  ⟨by decide, by decide, C13_buffer_safety (List.replicate 5 0) [0x01, 0x02, 0x03] 0 []
    { stack := [] } (by decide) 2 (by decide)⟩

/-! ## The chunks passed to `lua_concat` -/

theorem transform_eq_nil (c n : Byte) (h : transform c n = []) :
    c = 0x5c ∧ isControl n = true := by
  revert h
  apply transform_cases (fun out => out = [] → c = 0x5c ∧ isControl n = true) c n
  · intro _ h; simp at h
  · intro _ _ h; simp at h
  · intro hc hn _; exact ⟨hc, hn⟩
  · intro _ _ h; simp at h
  · intro _ h; simp at h

theorem escapeSpec_eq_nil (t : Byte) (S : List Byte) (h : escapeSpec t S = []) :
    S = [] ∨ S = [0x5c] := by
  cases S with
  | nil => exact Or.inl rfl
  | cons c rest =>
    right
    rw [escapeSpec, List.append_eq_nil] at h
    obtain ⟨hc, hn⟩ := transform_eq_nil c _ h.1
    cases rest with
    | nil => rw [hc]
    | cons d rest1 =>
      exfalso
      have h2 := h.2
      rw [escapeSpec, List.append_eq_nil] at h2
      obtain ⟨hd, _⟩ := transform_eq_nil d _ h2.1
      rw [List.headD_cons, hd] at hn
      revert hn
      decide

theorem escapeSpec_ne_nil (t : Byte) (S : List Byte) (ht : isControl t = false)
    (hS : S ≠ []) : escapeSpec t S ≠ [] := by
  induction S with
  | nil => exact absurd rfl hS
  | cons c rest ih =>
    intro h
    rw [escapeSpec, List.append_eq_nil] at h
    cases rest with
    | nil =>
      obtain ⟨_, hn⟩ := transform_eq_nil c _ h.1
      rw [List.headD_nil, ht] at hn
      exact absurd hn (by decide)
    | cons d rest1 => exact ih (by simp) h.2

/-- C14 is broken by the code at the one-byte input `0x5C`: the lookahead `p[i + 1]` is not
checked against the length and reads the NUL stored after the string, the backslash is
dropped, nothing is written, and `lua_concat` is reached with `argc = 0`, no chunk at all;
the result is the empty text. Were the byte read after the end not a control byte, every
non-empty input would produce at least one chunk, as the claim says. -/
theorem C14_single_backslash_no_chunk (buf : List Byte) (L : lua_State)
    (hB : 5 ≤ buf.length) (hM : buf.length < SIZE_MOD) :
    (∃ st, escape_chunks buf ([0x5c] ++ [0]) [(0x5c : Byte)].length L = some st ∧
        st.argc = 0) ∧
      escape buf [0x5c] = some [] ∧
      (∀ (S : List Byte) (t : Byte) (junk : List Byte), S ≠ [] → isControl t = false →
        ∃ st, escape_chunks buf (S ++ t :: junk) S.length L = some st ∧ 1 ≤ st.argc) := by
  refine ⟨?_, ?_, ?_⟩
  · obtain ⟨st, cs, h1, _, h3, _, _, h6⟩ := escape_chunks_sized buf [0x5c] 0 [] L hB
    refine ⟨st, h1, ?_⟩
    have h0 := h6 hM 0 (by simp [escapeSpec, transform_backslash, isControl])
    omega
  · rw [escape_eq_escapeSpec buf _ hB]
    rfl
  · intro S t junk hS ht
    obtain ⟨st, cs, h1, _, h3, h4, _⟩ := escape_chunks_sized buf S t junk L hB
    refine ⟨st, h1, ?_⟩
    rw [h3]
    cases cs with
    | nil => exact absurd h4.symm (escapeSpec_ne_nil t S ht hS)
    | cons c cs1 => simp

theorem C14_single_backslash_no_chunk_witness :
    5 ≤ (List.replicate 5 (0 : Byte)).length ∧ (List.replicate 5 (0 : Byte)).length < SIZE_MOD ∧
      ∃ st, escape_chunks (List.replicate 5 0) ([0x5c] ++ [0]) [(0x5c : Byte)].length
          { stack := [LuaValue.string [0x5c]] } = some st ∧ st.argc = 0 :=
  ⟨by decide, by decide, (C14_single_backslash_no_chunk (List.replicate 5 0)
    { stack := [LuaValue.string [0x5c]] } (by decide) (by decide)).1⟩

/-! ## The bytes of the escaped form -/

end LuaAssert
